import Mathlib

set_option autoImplicit false

/-!
# Verification of the manuscript record store

A shallow embedding of `manuscripts.py`: a JSON-file backed list of
manuscript records with add/edit/delete/list/filter/aggregate operations,
plus a constant prompt generator.

Modelling conventions:

* Python's untyped JSON data is the inductive type `JValue`; Python `dict`s
  are association lists with distinct keys (well-formedness is stated where
  a proof needs it, since Python dictionaries cannot hold duplicate keys).
* JSON numbers are modelled as integers.  IEEE-754 floating point is outside
  the embedding; the data model only needs names (strings) and counts.
* `json.dump(..., indent=2, ensure_ascii=False)` and `json.loads` are
  modelled by an executable printer (`dumps`) and parser (`loads`) over
  character lists.  The printer omits the optional inter-token whitespace
  that `indent=2` inserts; the parser skips whitespace, so the observable
  behaviour (which value a written file denotes) is unchanged.
* Mutating methods of `ManuscriptDB` are modelled as functions from the
  store state to a pair of the new state and an optional error, mirroring
  a raised `IndexError` leaving the Python object untouched.
-/

namespace Manuscripts

/-- A JSON value, the model of Python data handled by the `json` module. -/
inductive JValue where
  | null : JValue
  | jbool (b : Bool) : JValue
  | jnum (n : Int) : JValue
  | jstr (s : String) : JValue
  | jarr (elems : List JValue) : JValue
  | jobj (pairs : List (String × JValue)) : JValue

/-- A record (a Python `Dict[str, Any]`): an association list of fields. -/
abbrev Record := List (String × JValue)

/-- `d.get(k)`: first value bound to `k`, if any. -/
def getKey : Record → String → Option JValue
  | [], _ => none
  | (k', v) :: rest, k => if k' = k then some v else getKey rest k

/-- `k in d`: whether the key is bound. -/
def hasKey : Record → String → Bool
  | [], _ => false
  | (k', _) :: rest, k => if k' = k then true else hasKey rest k

/-- `d[k] = v`: replace the value of an existing key in place, otherwise
append the new binding at the end (Python dict assignment). -/
def setKey : Record → String → JValue → Record
  | [], k, v => [(k, v)]
  | (k', v') :: rest, k, v =>
    if k' = k then (k, v) :: rest else (k', v') :: setKey rest k v

/-- `d.update(u)`: assign every binding of `u` into `d`, in order. -/
def dictUpdate (e : Record) (u : Record) : Record :=
  u.foldl (fun acc kv => setKey acc kv.1 kv.2) e

/-- Keys are pairwise distinct (every Python dict satisfies this). -/
def keysNodup : Record → Bool
  | [] => true
  | (k, _) :: rest => !hasKey rest k && keysNodup rest

/-! ## JSON printing (`json.dump(..., indent=2, ensure_ascii=False)`) -/

/-- Lower-case hexadecimal digit, as used by the `\u00xx` escapes. -/
def hexDigitChar (n : Nat) : Char :=
  if n < 10 then Char.ofNat (48 + n) else Char.ofNat (87 + n)

/-- Escape one character of a JSON string: `"` and `\` are escaped, the
common control characters use their short escapes, the remaining control
characters use `\u00xx`, and everything else (including non-ASCII text,
because of `ensure_ascii=False`) is written verbatim. -/
def escChar (c : Char) : List Char :=
  if c = '"' then ['\\', '"']
  else if c = '\\' then ['\\', '\\']
  else if c = '\n' then ['\\', 'n']
  else if c = '\t' then ['\\', 't']
  else if c = '\r' then ['\\', 'r']
  else if c = Char.ofNat 8 then ['\\', 'b']
  else if c = Char.ofNat 12 then ['\\', 'f']
  else if c.toNat < 32 then
    ['\\', 'u', '0', '0', hexDigitChar (c.toNat / 16), hexDigitChar (c.toNat % 16)]
  else [c]

/-- Escape a whole string body. -/
def escapeChars (cs : List Char) : List Char := cs.flatMap escChar

/-- A quoted, escaped JSON string literal. -/
def printStrChars (s : String) : List Char := '"' :: escapeChars s.data ++ ['"']

/-- Decimal digit character for `n < 10`. -/
def digitChar (n : Nat) : Char := Char.ofNat (48 + n)

/-- Decimal digits, by structural recursion on a fuel that only needs to
dominate the number of digits; `natChars` supplies `n` itself. -/
def natCharsAux : Nat → Nat → List Char
  | 0, n => [digitChar n]
  | fuel + 1, n =>
    if n < 10 then [digitChar n] else natCharsAux fuel (n / 10) ++ [digitChar (n % 10)]

/-- Decimal digits of a natural number, most significant first. -/
def natChars (n : Nat) : List Char := natCharsAux n n

/-- Decimal rendering of an integer, as Python `repr` of an `int`. -/
def printInt (n : Int) : List Char :=
  if n < 0 then '-' :: natChars (-n).toNat else natChars n.toNat

mutual

/-- Characters of the serialized form of a value. -/
def printChars : JValue → List Char
  | .null => ['n', 'u', 'l', 'l']
  | .jbool true => ['t', 'r', 'u', 'e']
  | .jbool false => ['f', 'a', 'l', 's', 'e']
  | .jnum n => printInt n
  | .jstr s => printStrChars s
  | .jarr xs => '[' :: printItems xs ++ [']']
  | .jobj kvs => '{' :: printPairs kvs ++ ['}']

/-- Comma-separated array elements. -/
def printItems : List JValue → List Char
  | [] => []
  | [x] => printChars x
  | x :: xs => printChars x ++ ',' :: printItems xs

/-- Comma-separated `"key":value` object members. -/
def printPairs : List (String × JValue) → List Char
  | [] => []
  | [(k, v)] => printStrChars k ++ ':' :: printChars v
  | (k, v) :: kvs => printStrChars k ++ ':' :: printChars v ++ ',' :: printPairs kvs

end

/-- `json.dumps`: the serialized document. -/
def dumps (v : JValue) : String := ⟨printChars v⟩

/-! ## JSON parsing (`json.loads`) -/

/-- JSON (and Python `str.strip`) whitespace. -/
def isWs (c : Char) : Bool := c = ' ' || c = '\t' || c = '\n' || c = '\r'

/-- Skip leading whitespace between tokens. -/
def skipWs (cs : List Char) : List Char := cs.dropWhile isWs

/-- `str.strip()`: remove leading and trailing whitespace. -/
def stripChars (cs : List Char) : List Char :=
  ((cs.dropWhile isWs).reverse.dropWhile isWs).reverse

/-- Value of one hexadecimal digit. -/
def hexVal (c : Char) : Option Nat :=
  if 48 ≤ c.toNat ∧ c.toNat ≤ 57 then some (c.toNat - 48)
  else if 97 ≤ c.toNat ∧ c.toNat ≤ 102 then some (c.toNat - 87)
  else if 65 ≤ c.toNat ∧ c.toNat ≤ 70 then some (c.toNat - 55)
  else none

/-- Value of a `\uXXXX` escape. -/
def hex4 (a b c d : Char) : Option Nat := do
  let va ← hexVal a
  let vb ← hexVal b
  let vc ← hexVal c
  let vd ← hexVal d
  pure (va * 4096 + vb * 256 + vc * 16 + vd)

/-- Resolve a one-character escape sequence. -/
def unescapeChar (c : Char) : Option Char :=
  if c = '"' then some '"'
  else if c = '\\' then some '\\'
  else if c = '/' then some '/'
  else if c = 'b' then some (Char.ofNat 8)
  else if c = 'f' then some (Char.ofNat 12)
  else if c = 'n' then some '\n'
  else if c = 'r' then some '\r'
  else if c = 't' then some '\t'
  else none

/-- Parse the body of a string literal (the opening quote already consumed);
returns the decoded characters and the input after the closing quote.
Unescaped control characters are rejected, as in strict-mode `json.loads`. -/
def parseStrBody : List Char → Option (List Char × List Char)
  | [] => none
  | c :: rest =>
    if c = '"' then some ([], rest)
    else if c = '\\' then
      match rest with
      | [] => none
      | e :: rest' =>
        if e = 'u' then
          match rest' with
          | a :: b :: c2 :: d :: rest'' =>
            match hex4 a b c2 d with
            | some n => (fun p => (Char.ofNat n :: p.1, p.2)) <$> parseStrBody rest''
            | none => none
          | _ => none
        else
          match unescapeChar e with
          | some ch => (fun p => (ch :: p.1, p.2)) <$> parseStrBody rest'
          | none => none
    else if c.toNat < 32 then none
    else (fun p => (c :: p.1, p.2)) <$> parseStrBody rest

/-- Decimal digit character test. -/
def isDigitChar (c : Char) : Bool := 48 ≤ c.toNat && c.toNat ≤ 57

/-- Numeric value of a digit character. -/
def digitVal (c : Char) : Nat := c.toNat - 48

/-- Consume a maximal run of digits, accumulating their value. -/
def digitsLoop (acc : Nat) : List Char → Nat × List Char
  | [] => (acc, [])
  | c :: rest =>
    if isDigitChar c then digitsLoop (acc * 10 + digitVal c) rest else (acc, c :: rest)

/-- Parse a JSON natural-number literal: one or more digits, with the JSON
leading-zero restriction (`0` is only followed by a non-digit). -/
def parseNat : List Char → Option (Nat × List Char)
  | [] => none
  | c :: rest =>
    if isDigitChar c then
      if c = '0' then
        match rest with
        | d :: _ => if isDigitChar d then none else some (0, rest)
        | [] => some (0, [])
      else some (digitsLoop 0 (c :: rest))
    else none

/-- Parse an integer literal with optional leading minus sign. -/
def parseNum : List Char → Option (JValue × List Char)
  | [] => none
  | c :: rest =>
    if c = '-' then
      match parseNat rest with
      | some (m, r) => some (.jnum (-(m : Int)), r)
      | none => none
    else
      match parseNat (c :: rest) with
      | some (m, r) => some (.jnum (m : Int), r)
      | none => none

mutual

/-- Parse one JSON value.  `fuel` bounds the recursion depth; `loads` passes
a fuel larger than any value serialized in the input can need. -/
def parseVal : Nat → List Char → Option (JValue × List Char)
  | 0, _ => none
  | fuel + 1, cs =>
    match cs with
    | 'n' :: 'u' :: 'l' :: 'l' :: rest => some (.null, rest)
    | 't' :: 'r' :: 'u' :: 'e' :: rest => some (.jbool true, rest)
    | 'f' :: 'a' :: 'l' :: 's' :: 'e' :: rest => some (.jbool false, rest)
    | '"' :: rest => (fun p => (JValue.jstr ⟨p.1⟩, p.2)) <$> parseStrBody rest
    | '[' :: rest =>
      match skipWs rest with
      | ']' :: r => some (.jarr [], r)
      | r => (fun p => (JValue.jarr p.1, p.2)) <$> parseItems fuel r
    | '{' :: rest =>
      match skipWs rest with
      | '}' :: r => some (.jobj [], r)
      | r => (fun p => (JValue.jobj p.1, p.2)) <$> parseMembers fuel [] r
    | _ => parseNum cs

/-- Parse one or more comma-separated array elements up to `]`. -/
def parseItems : Nat → List Char → Option (List JValue × List Char)
  | 0, _ => none
  | fuel + 1, cs =>
    match parseVal fuel cs with
    | some (v, r) =>
      match skipWs r with
      | ',' :: r2 => (fun p => (v :: p.1, p.2)) <$> parseItems fuel (skipWs r2)
      | ']' :: r2 => some ([v], r2)
      | _ => none
    | none => none

/-- Parse one or more object members up to `}`, assigning each into the
accumulated dictionary as Python's parser does. -/
def parseMembers : Nat → Record → List Char → Option (Record × List Char)
  | 0, _, _ => none
  | fuel + 1, acc, cs =>
    match cs with
    | '"' :: rest =>
      match parseStrBody rest with
      | some (kcs, r) =>
        match skipWs r with
        | ':' :: r2 =>
          match parseVal fuel (skipWs r2) with
          | some (v, r3) =>
            match skipWs r3 with
            | ',' :: r4 => parseMembers fuel (setKey acc ⟨kcs⟩ v) (skipWs r4)
            | '}' :: r4 => some (setKey acc ⟨kcs⟩ v, r4)
            | _ => none
          | none => none
        | _ => none
      | none => none
    | _ => none

end

/-- Parse a complete document: one value, surrounded only by whitespace. -/
def parseDoc (cs : List Char) : Option JValue :=
  match parseVal (cs.length + 1) (skipWs cs) with
  | some (v, r) => if skipWs r = [] then some v else none
  | none => none

/-- `json.loads` on a whole string. -/
def loads (s : String) : Option JValue := parseDoc s.data

/-! ## The record store -/

/-- Load-time failures of `ManuscriptDB._load`.  `malformed` models a
propagated `json.JSONDecodeError`; `notRecordArray` marks a well-formed JSON
document that is not the `List[Dict[str, Any]]` the store's declared type
promises (outside the store's contract). -/
inductive LoadError where
  | malformed : LoadError
  | notRecordArray : LoadError

/-- The elements of a JSON array read back as records. -/
def asRecords : List JValue → Option (List Record)
  | [] => some []
  | .jobj kvs :: rest => (fun rs => kvs :: rs) <$> asRecords rest
  | _ => none

/-- The in-memory list serialized as a single JSON array of objects. -/
def recordsToJson (data : List Record) : JValue := .jarr (data.map .jobj)

/-- The store: the in-memory record list together with the backing file
(`none` when the file does not exist). -/
structure DB where
  data : List Record
  file : Option String

/-- The only recoverable error of the mutating operations. -/
inductive DBError where
  | indexOutOfRange : DBError

/-- Lexicographic (code-point) comparison of character lists: Python's `<`
on strings. -/
def charsLt : List Char → List Char → Bool
  | [], [] => false
  | [], _ :: _ => true
  | _ :: _, [] => false
  | a :: as, b :: bs => if a < b then true else if b < a then false else charsLt as bs

/-- Python's `<` on strings. -/
def strLt (s t : String) : Bool := charsLt s.data t.data

/-- Insert into a sorted duplicate-free list, keeping it sorted and
duplicate-free. -/
def insertSorted (s : String) : List String → List String
  | [] => [s]
  | t :: ts =>
    if s = t then t :: ts
    else if strLt s t then s :: t :: ts
    else t :: insertSorted s ts

/-- `sorted(set(l))`: the distinct elements in ascending order. -/
def sortDedup (l : List String) : List String := l.foldr insertSorted []

namespace ManuscriptDB

/-- `ManuscriptDB._load`: read the backing file if it exists, strip it, treat
emptiness as the empty store, otherwise parse the JSON document. -/
def load (file : Option String) : Except LoadError (List Record) :=
  match file with
  | none => .ok []
  | some s =>
    let content := stripChars s.data
    if content = [] then .ok []
    else
      match parseDoc content with
      | none => .error .malformed
      | some (.jarr xs) =>
        match asRecords xs with
        | some rs => .ok rs
        | none => .error .notRecordArray
      | some _ => .error .notRecordArray

/-- Construct a store from a backing file (`ManuscriptDB.__init__`). -/
def init (file : Option String) : Except LoadError DB :=
  (load file).map fun rs => ⟨rs, file⟩

/-- `ManuscriptDB._save`: rewrite the backing file with the whole list. -/
def save (db : DB) : DB :=
  { db with file := some (dumps (recordsToJson db.data)) }

/-- `ManuscriptDB.add`: append the entry, then persist. -/
def add (db : DB) (entry : Record) : DB :=
  save { db with data := db.data ++ [entry] }

/-- `ManuscriptDB.edit`: on an invalid index raise `IndexError` leaving the
state untouched; otherwise merge `updates` into the addressed record with
`dict.update` and persist. -/
def edit (db : DB) (index : Int) (updates : Record) : DB × Option DBError :=
  if index < 0 ∨ (db.data.length : Int) ≤ index then (db, some .indexOutOfRange)
  else
    (save { db with
      data := db.data.set index.toNat (dictUpdate (db.data.getD index.toNat []) updates) },
     none)

/-- `ManuscriptDB.delete`: on an invalid index raise `IndexError` leaving the
state untouched; otherwise pop the addressed record and persist. -/
def delete (db : DB) (index : Int) : DB × Option DBError :=
  if index < 0 ∨ (db.data.length : Int) ≤ index then (db, some .indexOutOfRange)
  else (save { db with data := db.data.eraseIdx index.toNat }, none)

/-- `ManuscriptDB.list`: the full ordered record list. -/
def list (db : DB) : List Record := db.data

/-- The sub-entry objects of `entry.get(k, [])`.  The data model (and the
store's declared type) makes this field, when present, a list of objects;
other shapes would raise inside Python's iteration and are outside the
modelled state space (see `entryShapeOk`). -/
def subEntries (e : Record) (k : String) : List Record :=
  match getKey e k with
  | some (.jarr xs) =>
    xs.filterMap fun x => match x with | .jobj kvs => some kvs | _ => none
  | _ => []

/-- The field `k`, when present, is a list of objects. -/
def entryShapeOk (e : Record) (k : String) : Bool :=
  match getKey e k with
  | none => true
  | some (.jarr xs) => xs.all fun x => match x with | .jobj _ => true | _ => false
  | some _ => false

/-- Every record's `methods`/`datasets`/`metrics` fields have the shape the
data model prescribes. -/
def dataWF (data : List Record) : Bool :=
  data.all fun e =>
    entryShapeOk e "methods" && entryShapeOk e "datasets" && entryShapeOk e "metrics"

/-- The name value of one sub-entry when it is a non-empty string; Python's
`if name:` skips `None` and the empty string. -/
def truthyName (v : Option JValue) : Option String :=
  match v with
  | some (.jstr s) => if s = "" then none else some s
  | _ => none

/-- Sub-entry name values, when present, are strings (the data model's
`model_name`/`name` are text; `sorted` over mixed types would raise). -/
def nameOk (v : Option JValue) : Bool :=
  match v with
  | none => true
  | some (.jstr _) => true
  | some _ => false

/-- All name values reachable by `list_fields` are strings. -/
def namesWF (data : List Record) : Bool :=
  data.all fun e =>
    ((subEntries e "methods").all fun m => nameOk (getKey m "model_name")) &&
    ((subEntries e "datasets").all fun d => nameOk (getKey d "name")) &&
    ((subEntries e "metrics").all fun m => nameOk (getKey m "name"))

/-- The non-empty string names in one record under `listKey`/`nameKey`. -/
def namesIn (e : Record) (listKey nameKey : String) : List String :=
  (subEntries e listKey).filterMap fun m => truthyName (getKey m nameKey)

/-- The three aggregated name lists returned by `list_fields`. -/
structure FieldLists where
  models : List String
  datasets : List String
  metrics : List String

/-- `ManuscriptDB.list_fields`: collect the distinct non-empty model,
dataset and metric names over all records and sort each collection.
Building a `set` and then `sorted` is modelled extensionally by
`sortDedup` over the concatenated name occurrences. -/
def list_fields (data : List Record) : FieldLists :=
  { models := sortDedup (data.flatMap fun e => namesIn e "methods" "model_name")
    datasets := sortDedup (data.flatMap fun e => namesIn e "datasets" "name")
    metrics := sortDedup (data.flatMap fun e => namesIn e "metrics" "name") }

/-- `any(m.get(nameKey) == target for m in entry.get(listKey, []))` with a
string `target`: Python `==` between a string and a non-string is `False`. -/
def anyName (e : Record) (listKey nameKey target : String) : Bool :=
  (subEntries e listKey).any fun m =>
    match getKey m nameKey with
    | some (.jstr s) => s = target
    | _ => false

/-- One parameter check of `filter`: `if model and not any(...)`.  An absent
(`none`) or empty-string parameter imposes no constraint. -/
def checkParam (e : Record) (listKey nameKey : String) : Option String → Bool
  | none => true
  | some s => if s = "" then true else anyName e listKey nameKey s

/-- The whole per-entry test of `filter`: all three checks pass. -/
def entryMatches (model dataset metric : Option String) (e : Record) : Bool :=
  checkParam e "methods" "model_name" model &&
  checkParam e "datasets" "name" dataset &&
  checkParam e "metrics" "name" metric

/-- `ManuscriptDB.filter`: keep, in order, the entries passing all three
parameter checks. -/
def filter (model dataset metric : Option String) (data : List Record) : List Record :=
  data.filter (entryMatches model dataset metric)

end ManuscriptDB

/-- The specification's notion of one parameter matching a record: for a
provided parameter value, some sub-entry of the corresponding list carries
exactly that name. -/
def claimCheck (p : Option String) (e : Record) (listKey nameKey : String) : Prop :=
  ∀ s, p = some s → ∃ m ∈ ManuscriptDB.subEntries e listKey,
    getKey m nameKey = some (.jstr s)

/-- The specification's record-matching predicate: every provided parameter
is matched; the three parameters combine by conjunction. -/
def claimMatches (model dataset metric : Option String) (e : Record) : Prop :=
  claimCheck model e "methods" "model_name" ∧
  claimCheck dataset e "datasets" "name" ∧
  claimCheck metric e "metrics" "name"

/-! ## The prompt generator -/

/-- The fixed instruction document built inside `generate_prompt`. -/
def promptValue : JValue :=
  .jobj [
    ("instruction",
      .jstr "Given the text of an academic manuscript, extract structured information."),
    ("fields", .jobj [
      ("methods", .jarr [.jobj [
        ("model_name", .jstr ""),
        ("type", .jstr "LLM | VLM | Image"),
        ("embedding_size", .jstr "integer"),
        ("backbone", .jstr ""),
        ("parameters", .jstr "integer")]]),
      ("datasets", .jarr [.jobj [
        ("name", .jstr ""),
        ("usage", .jstr "training | finetuning | evaluation"),
        ("focus", .jstr "main purpose or domain"),
        ("sample_type", .jstr "QA pair | long text | medical EHR | report | other"),
        ("is_public", .jstr "true | false"),
        ("num_samples", .jstr "integer")]]),
      ("metrics", .jarr [.jobj [
        ("name", .jstr ""),
        ("evaluation_type", .jstr "multiple choice | QA | other"),
        ("value", .jstr "number"),
        ("description", .jstr "how the metric is calculated"),
        ("model_name", .jstr "associated model")]])])]

/-- `generate_prompt`: the serialized instruction document.  It takes no
input at all, so it is a constant, independent of any store state. -/
def generate_prompt : String := dumps promptValue

/-- The `fields` object of the parsed prompt document. -/
def fieldsObj (v : JValue) : Option Record :=
  match v with
  | .jobj kvs =>
    match getKey kvs "fields" with
    | some (.jobj f) => some f
    | _ => none
  | _ => none

/-! ## Well-formed values (Python dictionaries have distinct keys) -/

mutual

/-- Every object in the value has pairwise-distinct keys — true of any value
produced from Python data, where objects are dictionaries. -/
def wfVal : JValue → Bool
  | .jarr xs => wfList xs
  | .jobj kvs => keysNodup kvs && wfPairs kvs
  | _ => true

/-- `wfVal` on every element. -/
def wfList : List JValue → Bool
  | [] => true
  | x :: xs => wfVal x && wfList xs

/-- `wfVal` on every member value. -/
def wfPairs : List (String × JValue) → Bool
  | [] => true
  | (_, v) :: kvs => wfVal v && wfPairs kvs

end

/-- The next character, if any, is not a digit — the context in which a
serialized number is followed by nothing that extends the literal. -/
def headNotDigit : List Char → Bool
  | [] => true
  | c :: _ => !isDigitChar c

mutual

/-- A recursion-depth budget sufficient for `parseVal` on the serialized
form of the value. -/
def cost : JValue → Nat
  | .jarr (x :: xs) => 1 + costItems (x :: xs)
  | .jobj (kv :: kvs) => 1 + costPairs (kv :: kvs)
  | _ => 1

/-- Budget for `parseItems` on the serialized elements. -/
def costItems : List JValue → Nat
  | [] => 0
  | x :: xs => 1 + cost x + costItems xs

/-- Budget for `parseMembers` on the serialized members. -/
def costPairs : List (String × JValue) → Nat
  | [] => 0
  | (_, v) :: kvs => 1 + cost v + costPairs kvs

end

/-! ## Dictionary lemmas -/

theorem getKey_setKey_self (e : Record) (k : String) (v : JValue) :
    getKey (setKey e k v) k = some v := by
  induction e with
  | nil => simp [setKey, getKey]
  | cons kv rest ih =>
    obtain ⟨k', v'⟩ := kv
    by_cases h : k' = k
    · simp [setKey, getKey, h]
    · simp [setKey, getKey, h, ih]

theorem getKey_setKey_ne (e : Record) (k k' : String) (v : JValue) (h : k' ≠ k) :
    getKey (setKey e k v) k' = getKey e k' := by
  have hk : ¬k = k' := fun he => h he.symm
  induction e with
  | nil => simp [setKey, getKey, hk]
  | cons kv rest ih =>
    obtain ⟨k0, v0⟩ := kv
    by_cases h0 : k0 = k
    · subst h0
      simp [setKey, getKey, hk]
    · simp [setKey, getKey, h0, ih]

theorem setKey_of_not_hasKey (e : Record) (k : String) (v : JValue)
    (h : hasKey e k = false) : setKey e k v = e ++ [(k, v)] := by
  induction e with
  | nil => simp [setKey]
  | cons kv rest ih =>
    obtain ⟨k0, v0⟩ := kv
    by_cases h0 : k0 = k
    · simp [hasKey, h0] at h
    · simp [hasKey, h0] at h
      simp [setKey, h0, ih h]

theorem hasKey_append (a b : Record) (k : String) :
    hasKey (a ++ b) k = (hasKey a k || hasKey b k) := by
  induction a with
  | nil => simp [hasKey]
  | cons kv rest ih =>
    obtain ⟨k0, v0⟩ := kv
    by_cases h0 : k0 = k <;> simp [hasKey, h0, ih]

theorem mem_hasKey (e : Record) (k : String) (v : JValue) (h : (k, v) ∈ e) :
    hasKey e k = true := by
  induction e with
  | nil => simp at h
  | cons kv rest ih =>
    obtain ⟨k0, v0⟩ := kv
    rcases List.mem_cons.mp h with h1 | h1
    · injection h1 with e1 e2
      subst e1
      simp [hasKey]
    · by_cases h0 : k0 = k <;> simp [hasKey, h0, ih h1]

theorem not_hasKey_ne (e : Record) (k k' : String) (v' : JValue)
    (h : hasKey e k = false) (hm : (k', v') ∈ e) : k' ≠ k := by
  intro he
  subst he
  rw [mem_hasKey e k' v' hm] at h
  cases h

theorem dictUpdate_nil (e : Record) : dictUpdate e [] = e := rfl

theorem dictUpdate_cons (e : Record) (k : String) (v : JValue) (u : Record) :
    dictUpdate e ((k, v) :: u) = dictUpdate (setKey e k v) u := rfl

theorem getKey_dictUpdate (u : Record) (hu : keysNodup u = true) :
    ∀ (e : Record) (k : String),
      getKey (dictUpdate e u) k = if hasKey u k then getKey u k else getKey e k := by
  induction u with
  | nil => intro e k; simp [dictUpdate, hasKey]
  | cons kv u' ih =>
    obtain ⟨k0, v0⟩ := kv
    simp only [keysNodup, Bool.and_eq_true, Bool.not_eq_true'] at hu
    obtain ⟨h0, hu'⟩ := hu
    intro e k
    rw [dictUpdate_cons, ih hu']
    by_cases hk : k0 = k
    · subst hk
      simp [hasKey, getKey, h0, getKey_setKey_self]
    · simp [hasKey, getKey, hk, getKey_setKey_ne e k0 k v0 (fun he => hk he.symm)]

/-! ## Lexicographic order and sorted deduplication -/

theorem charsLt_irrefl : ∀ cs, charsLt cs cs = false
  | [] => rfl
  | c :: cs => by simp [charsLt, lt_irrefl, charsLt_irrefl cs]

theorem charsLt_trans :
    ∀ as bs cs, charsLt as bs = true → charsLt bs cs = true → charsLt as cs = true := by
  intro as
  induction as with
  | nil =>
    intro bs cs h1 h2
    cases bs with
    | nil => simp [charsLt] at h1
    | cons b bs =>
      cases cs with
      | nil => simp [charsLt] at h2
      | cons c cs => simp [charsLt]
  | cons a as ih =>
    intro bs cs h1 h2
    cases bs with
    | nil => simp [charsLt] at h1
    | cons b bs =>
      cases cs with
      | nil => simp [charsLt] at h2
      | cons c cs =>
        simp only [charsLt] at h1 h2 ⊢
        by_cases hab : a < b
        · by_cases hbc : b < c
          · rw [if_pos (lt_trans hab hbc)]
          · rw [if_neg hbc] at h2
            by_cases hcb : c < b
            · rw [if_pos hcb] at h2
              exact Bool.noConfusion h2
            · have hbceq : b = c := le_antisymm (not_lt.mp hcb) (not_lt.mp hbc)
              subst hbceq
              rw [if_pos hab]
        · rw [if_neg hab] at h1
          by_cases hba : b < a
          · rw [if_pos hba] at h1
            exact Bool.noConfusion h1
          · have habeq : a = b := le_antisymm (not_lt.mp hba) (not_lt.mp hab)
            subst habeq
            rw [if_neg hba] at h1
            by_cases hac : a < c
            · rw [if_pos hac]
            · rw [if_neg hac] at h2 ⊢
              by_cases hca : c < a
              · rw [if_pos hca] at h2
                exact Bool.noConfusion h2
              · rw [if_neg hca] at h2 ⊢
                exact ih bs cs h1 h2

theorem charsLt_connex :
    ∀ as bs, as ≠ bs → charsLt as bs = true ∨ charsLt bs as = true := by
  intro as
  induction as with
  | nil =>
    intro bs h
    cases bs with
    | nil => exact absurd rfl h
    | cons b bs => left; simp [charsLt]
  | cons a as ih =>
    intro bs h
    cases bs with
    | nil => right; simp [charsLt]
    | cons b bs =>
      rcases lt_trichotomy a b with hab | hab | hab
      · left; simp [charsLt, hab]
      · subst hab
        have hne : as ≠ bs := fun he => h (by rw [he])
        rcases ih bs hne with h1 | h1
        · left; simp [charsLt, lt_irrefl, h1]
        · right; simp [charsLt, lt_irrefl, h1]
      · right; simp [charsLt, hab]

theorem strLt_irrefl (s : String) : strLt s s = false := charsLt_irrefl s.data

theorem strLt_trans {s t u : String} (h1 : strLt s t = true) (h2 : strLt t u = true) :
    strLt s u = true := charsLt_trans s.data t.data u.data h1 h2

theorem strLt_connex (s t : String) (h : s ≠ t) :
    strLt s t = true ∨ strLt t s = true :=
  charsLt_connex s.data t.data fun hd => h (String.ext hd)

theorem mem_insertSorted (s x : String) :
    ∀ l, x ∈ insertSorted s l ↔ x = s ∨ x ∈ l := by
  intro l
  induction l with
  | nil => simp [insertSorted]
  | cons t ts ih =>
    by_cases h1 : s = t
    · subst h1
      simp [insertSorted]
    · by_cases h2 : strLt s t = true
      · simp [insertSorted, h1, h2]
      · simp [insertSorted, h1, h2, ih]
        tauto

theorem pairwise_insertSorted (s : String) :
    ∀ l, List.Pairwise (fun a b => strLt a b = true) l →
      List.Pairwise (fun a b => strLt a b = true) (insertSorted s l) := by
  intro l
  induction l with
  | nil => intro _; simp [insertSorted]
  | cons t ts ih =>
    intro h
    rw [List.pairwise_cons] at h
    obtain ⟨ht, hts⟩ := h
    by_cases h1 : s = t
    · subst h1
      simp only [insertSorted, if_pos rfl]
      exact List.pairwise_cons.mpr ⟨ht, hts⟩
    · by_cases h2 : strLt s t = true
      · simp only [insertSorted, if_neg h1, if_pos h2]
        refine List.pairwise_cons.mpr ⟨?_, List.pairwise_cons.mpr ⟨ht, hts⟩⟩
        intro y hy
        rcases List.mem_cons.mp hy with hy1 | hy1
        · subst hy1; exact h2
        · exact strLt_trans h2 (ht y hy1)
      · have h3 : strLt t s = true := by
          rcases strLt_connex s t h1 with h4 | h4
          · exact absurd h4 h2
          · exact h4
        simp only [insertSorted, if_neg h1, if_neg h2]
        refine List.pairwise_cons.mpr ⟨?_, ih hts⟩
        intro y hy
        rcases (mem_insertSorted s y ts).mp hy with hy1 | hy1
        · subst hy1; exact h3
        · exact ht y hy1

theorem sortDedup_pairwise (l : List String) :
    List.Pairwise (fun a b => strLt a b = true) (sortDedup l) := by
  induction l with
  | nil => simp [sortDedup]
  | cons x l ih => exact pairwise_insertSorted x (sortDedup l) ih

theorem mem_sortDedup (x : String) (l : List String) :
    x ∈ sortDedup l ↔ x ∈ l := by
  induction l with
  | nil => simp [sortDedup]
  | cons y l ih =>
    show x ∈ insertSorted y (sortDedup l) ↔ _
    rw [mem_insertSorted, ih]
    simp

theorem sortDedup_nodup (l : List String) : (sortDedup l).Nodup := by
  refine (sortDedup_pairwise l).imp ?_
  intro a b hab he
  subst he
  rw [strLt_irrefl] at hab
  cases hab

/-! ## Decimal digits -/

theorem digitChar_toNat : ∀ d, d < 10 → (digitChar d).toNat = 48 + d := by decide

theorem digitChar_isDigit : ∀ d, d < 10 → isDigitChar (digitChar d) = true := by decide

theorem digitChar_digitVal : ∀ d, d < 10 → digitVal (digitChar d) = d := by decide

theorem digitChar_not_ws : ∀ d, d < 10 → isWs (digitChar d) = false := by decide

theorem natCharsAux_congr :
    ∀ f1 f2 n, n ≤ f1 → n ≤ f2 → natCharsAux f1 n = natCharsAux f2 n := by
  intro f1
  induction f1 with
  | zero =>
    intro f2 n h1 h2
    interval_cases n
    cases f2 with
    | zero => rfl
    | succ g => simp [natCharsAux]
  | succ f ih =>
    intro f2 n h1 h2
    cases f2 with
    | zero =>
      interval_cases n
      simp [natCharsAux]
    | succ g =>
      by_cases h : n < 10
      · simp [natCharsAux, h]
      · simp only [natCharsAux, if_neg h]
        have hdiv : n / 10 < n := Nat.div_lt_self (by omega) (by omega)
        rw [ih g (n / 10) (by omega) (by omega)]

theorem natChars_lt10 {n : Nat} (h : n < 10) : natChars n = [digitChar n] := by
  cases n with
  | zero => rfl
  | succ m => simp [natChars, natCharsAux, h]

theorem natChars_ge10 {n : Nat} (h : 10 ≤ n) :
    natChars n = natChars (n / 10) ++ [digitChar (n % 10)] := by
  obtain ⟨m, rfl⟩ : ∃ m, n = m + 1 := ⟨n - 1, by omega⟩
  have hlt : ¬(m + 1 < 10) := by omega
  show natCharsAux (m + 1) (m + 1) = natCharsAux ((m + 1) / 10) ((m + 1) / 10) ++ _
  simp only [natCharsAux, if_neg hlt]
  have hdiv : (m + 1) / 10 < m + 1 := Nat.div_lt_self (by omega) (by omega)
  rw [natCharsAux_congr m ((m + 1) / 10) ((m + 1) / 10) (by omega) (le_refl _)]

theorem natChars_ne_nil (n : Nat) : natChars n ≠ [] := by
  by_cases h : n < 10
  · rw [natChars_lt10 h]
    simp
  · rw [natChars_ge10 (by omega)]
    simp

theorem mem_natChars_digit (n : Nat) : ∀ c ∈ natChars n, isDigitChar c = true := by
  induction n using Nat.strong_induction_on with
  | _ n ih =>
    by_cases h : n < 10
    · rw [natChars_lt10 h]
      intro c hc
      rw [List.mem_singleton] at hc
      subst hc
      exact digitChar_isDigit n h
    · rw [natChars_ge10 (by omega)]
      intro c hc
      rcases List.mem_append.mp hc with hc1 | hc1
      · exact ih (n / 10) (Nat.div_lt_self (by omega) (by omega)) c hc1
      · rw [List.mem_singleton] at hc1
        subst hc1
        exact digitChar_isDigit (n % 10) (Nat.mod_lt n (by omega))

theorem natChars_head_ne_zero (n : Nat) (hn : 1 ≤ n) :
    ∀ c t, natChars n = c :: t → c ≠ '0' := by
  induction n using Nat.strong_induction_on with
  | _ n ih =>
    by_cases h : n < 10
    · rw [natChars_lt10 h]
      intro c t hct hc0
      obtain ⟨rfl, -⟩ := List.cons.inj hct
      have h1 := digitChar_toNat n h
      rw [hc0] at h1
      simp at h1
      omega
    · rw [natChars_ge10 (by omega)]
      intro c t hct
      rcases hq : natChars (n / 10) with _ | ⟨c', t'⟩
      · exact absurd hq (natChars_ne_nil (n / 10))
      · rw [hq, List.cons_append] at hct
        obtain ⟨he, -⟩ := List.cons.inj hct
        rw [← he]
        exact ih (n / 10) (Nat.div_lt_self (by omega) (by omega))
          (by omega : 1 ≤ n / 10) c' t' hq

theorem digitsLoop_stop (acc : Nat) (rest : List Char) (h : headNotDigit rest = true) :
    digitsLoop acc rest = (acc, rest) := by
  cases rest with
  | nil => rfl
  | cons c cs =>
    simp only [headNotDigit, Bool.not_eq_true'] at h
    simp [digitsLoop, h]

theorem digitsLoop_natChars (n : Nat) :
    ∀ acc rest, digitsLoop acc (natChars n ++ rest) =
      digitsLoop (acc * 10 ^ (natChars n).length + n) rest := by
  induction n using Nat.strong_induction_on with
  | _ n ih =>
    intro acc rest
    by_cases h : n < 10
    · rw [natChars_lt10 h]
      simp only [List.singleton_append, List.length_singleton, pow_one]
      simp [digitsLoop, digitChar_isDigit n h, digitChar_digitVal n h]
    · rw [natChars_ge10 (by omega), List.append_assoc, List.singleton_append]
      rw [ih (n / 10) (Nat.div_lt_self (by omega) (by omega))]
      have hd : isDigitChar (digitChar (n % 10)) = true :=
        digitChar_isDigit (n % 10) (Nat.mod_lt n (by omega))
      have hv : digitVal (digitChar (n % 10)) = n % 10 :=
        digitChar_digitVal (n % 10) (Nat.mod_lt n (by omega))
      simp only [digitsLoop, hd, if_pos, hv]
      have hlen : (natChars (n / 10) ++ [digitChar (n % 10)]).length =
          (natChars (n / 10)).length + 1 := by simp
      rw [hlen]
      congr 1
      rw [pow_succ]
      have hmod : n / 10 * 10 + n % 10 = n := by omega
      calc (acc * 10 ^ (natChars (n / 10)).length + n / 10) * 10 + n % 10
          = acc * (10 ^ (natChars (n / 10)).length * 10) + (n / 10 * 10 + n % 10) := by
            ring
        _ = acc * (10 ^ (natChars (n / 10)).length * 10) + n := by rw [hmod]

theorem parseNat_natChars (n : Nat) (rest : List Char) (h : headNotDigit rest = true) :
    parseNat (natChars n ++ rest) = some (n, rest) := by
  by_cases h0 : n = 0
  · subst h0
    rw [natChars_lt10 (by omega)]
    have : digitChar 0 = '0' := by decide
    rw [this]
    cases rest with
    | nil => rfl
    | cons d t =>
      simp only [headNotDigit, Bool.not_eq_true'] at h
      have hd0 : isDigitChar '0' = true := by decide
      simp [parseNat, h, hd0]
  · rcases hnc : natChars n with _ | ⟨c, t⟩
    · exact absurd hnc (natChars_ne_nil n)
    · have hcd : isDigitChar c = true :=
        mem_natChars_digit n c (by rw [hnc]; exact List.mem_cons_self c t)
      have hc0 : c ≠ '0' := natChars_head_ne_zero n (by omega) c t hnc
      rw [List.cons_append]
      simp only [parseNat, hcd, if_pos, if_neg hc0]
      rw [← List.cons_append, ← hnc, digitsLoop_natChars n 0 rest]
      simp only [Nat.zero_mul, Nat.zero_add]
      rw [digitsLoop_stop n rest h]

theorem parseNum_print (i : Int) (rest : List Char) (h : headNotDigit rest = true) :
    parseNum (printInt i ++ rest) = some (.jnum i, rest) := by
  by_cases hi : i < 0
  · rw [printInt, if_pos hi, List.cons_append]
    show (match parseNat (natChars (-i).toNat ++ rest) with
      | some (m, r) => some (JValue.jnum (-(m : Int)), r)
      | none => none) = some (.jnum i, rest)
    rw [parseNat_natChars (-i).toNat rest h]
    have hnn : ((-i).toNat : Int) = -i := Int.toNat_of_nonneg (by omega)
    simp [hnn]
  · rw [printInt, if_neg hi]
    rcases hnc : natChars i.toNat with _ | ⟨c, t⟩
    · exact absurd hnc (natChars_ne_nil i.toNat)
    · have hcd : isDigitChar c = true :=
        mem_natChars_digit i.toNat c (by rw [hnc]; exact List.mem_cons_self c t)
      have hcm : c ≠ '-' := by
        intro he
        rw [he] at hcd
        exact Bool.noConfusion hcd
      rw [List.cons_append]
      simp only [parseNum, if_neg hcm]
      rw [← List.cons_append, ← hnc, parseNat_natChars i.toNat rest h]
      have hnn : (i.toNat : Int) = i := Int.toNat_of_nonneg (by omega)
      simp [hnn]

/-! ## String escaping round-trip -/

theorem hex_encode :
    ∀ t, t < 32 →
      hex4 '0' '0' (hexDigitChar (t / 16)) (hexDigitChar (t % 16)) = some t := by
  decide

theorem parseStrBody_print :
    ∀ (cs rest : List Char),
      parseStrBody (escapeChars cs ++ '"' :: rest) = some (cs, rest) := by
  intro cs
  induction cs with
  | nil =>
    intro rest
    rw [show escapeChars [] ++ '"' :: rest = '"' :: rest by simp [escapeChars]]
    rw [parseStrBody.eq_def]
    simp
  | cons c cs ih =>
    intro rest
    have hesc : escapeChars (c :: cs) = escChar c ++ escapeChars cs := by
      simp [escapeChars]
    rw [hesc, List.append_assoc]
    by_cases h1 : c = '"'
    · subst h1
      rw [show escChar '"' = ['\\', '"'] from by simp [escChar]]
      rw [List.cons_append, List.cons_append, parseStrBody.eq_def]
      simp [unescapeChar, ih]
    · by_cases h2 : c = '\\'
      · subst h2
        rw [show escChar '\\' = ['\\', '\\'] from by simp [escChar]]
        rw [List.cons_append, List.cons_append, parseStrBody.eq_def]
        simp [unescapeChar, ih]
      · by_cases h3 : c = '\n'
        · subst h3
          rw [show escChar '\n' = ['\\', 'n'] from by simp [escChar]]
          rw [List.cons_append, List.cons_append, parseStrBody.eq_def]
          simp [unescapeChar, ih]
        · by_cases h4 : c = '\t'
          · subst h4
            rw [show escChar '\t' = ['\\', 't'] from by simp [escChar]]
            rw [List.cons_append, List.cons_append, parseStrBody.eq_def]
            simp [unescapeChar, ih]
          · by_cases h5 : c = '\r'
            · subst h5
              rw [show escChar '\r' = ['\\', 'r'] from by simp [escChar]]
              rw [List.cons_append, List.cons_append, parseStrBody.eq_def]
              simp [unescapeChar, ih]
            · by_cases h6 : c = Char.ofNat 8
              · subst h6
                rw [show escChar (Char.ofNat 8) = ['\\', 'b'] from by simp [escChar]]
                rw [List.cons_append, List.cons_append, parseStrBody.eq_def]
                simp [unescapeChar, ih]
              · by_cases h7 : c = Char.ofNat 12
                · subst h7
                  rw [show escChar (Char.ofNat 12) = ['\\', 'f'] from by simp [escChar]]
                  rw [List.cons_append, List.cons_append, parseStrBody.eq_def]
                  simp [unescapeChar, ih]
                · by_cases h8 : c.toNat < 32
                  · rw [show escChar c =
                        ['\\', 'u', '0', '0', hexDigitChar (c.toNat / 16),
                          hexDigitChar (c.toNat % 16)] from by
                      simp [escChar, h1, h2, h3, h4, h5, h6, h7, h8]]
                    simp only [List.cons_append]
                    rw [parseStrBody.eq_def]
                    simp [hex_encode c.toNat h8, ih, Char.ofNat_toNat]
                  · rw [show escChar c = [c] from by
                      simp [escChar, h1, h2, h3, h4, h5, h6, h7, h8]]
                    rw [List.cons_append, List.nil_append, parseStrBody.eq_def]
                    simp [h1, h2, h8, ih]

/-! ## Shape of serialized output -/

theorem skipWs_cons_of_not_ws {c : Char} {cs : List Char} (h : isWs c = false) :
    skipWs (c :: cs) = c :: cs := by
  simp [skipWs, List.dropWhile_cons, h]

theorem digit_char_props (c : Char) (h : isDigitChar c = true) :
    isWs c = false ∧ c ≠ ']' ∧ c ≠ '}' := by
  have hb : 48 ≤ c.toNat ∧ c.toNat ≤ 57 := by
    simpa [isDigitChar, Bool.and_eq_true, decide_eq_true_eq] using h
  have hne : ∀ d : Char, d.toNat < 48 ∨ 57 < d.toNat → c ≠ d := by
    intro d hd he
    subst he
    omega
  refine ⟨?_, hne ']' (by decide), hne '}' (by decide)⟩
  simp [isWs, hne ' ' (by decide), hne '\t' (by decide), hne '\n' (by decide),
    hne '\r' (by decide)]

theorem printInt_head (n : Int) :
    ∃ c t, printInt n = c :: t ∧ (isDigitChar c = true ∨ c = '-') := by
  by_cases hn : n < 0
  · exact ⟨'-', natChars (-n).toNat, by rw [printInt, if_pos hn], Or.inr rfl⟩
  · rw [printInt, if_neg hn]
    rcases hq : natChars n.toNat with _ | ⟨c, t⟩
    · exact absurd hq (natChars_ne_nil n.toNat)
    · exact ⟨c, t, rfl,
        Or.inl (mem_natChars_digit n.toNat c (by rw [hq]; exact List.mem_cons_self c t))⟩

theorem printChars_head (v : JValue) :
    ∃ c t, printChars v = c :: t ∧ isWs c = false ∧ c ≠ ']' ∧ c ≠ '}' := by
  cases v with
  | null => exact ⟨'n', ['u', 'l', 'l'], by simp [printChars], by decide, by decide, by decide⟩
  | jbool b =>
    cases b with
    | true => exact ⟨'t', ['r', 'u', 'e'], by simp [printChars], by decide, by decide, by decide⟩
    | false =>
      exact ⟨'f', ['a', 'l', 's', 'e'], by simp [printChars], by decide, by decide, by decide⟩
  | jnum n =>
    obtain ⟨c, t, hct, hc⟩ := printInt_head n
    have hpc : printChars (.jnum n) = c :: t := by rw [printChars]; exact hct
    rcases hc with hd | hm
    · obtain ⟨hw, h1, h2⟩ := digit_char_props c hd
      exact ⟨c, t, hpc, hw, h1, h2⟩
    · subst hm
      exact ⟨'-', t, hpc, by decide, by decide, by decide⟩
  | jstr s =>
    exact ⟨'"', escapeChars s.data ++ ['"'], by simp [printChars, printStrChars],
      by decide, by decide, by decide⟩
  | jarr xs =>
    exact ⟨'[', printItems xs ++ [']'], by simp [printChars], by decide, by decide, by decide⟩
  | jobj kvs =>
    exact ⟨'{', printPairs kvs ++ ['}'], by simp [printChars], by decide, by decide, by decide⟩

theorem natChars_concat (n : Nat) :
    ∃ t d, d < 10 ∧ natChars n = t ++ [digitChar d] := by
  by_cases h : n < 10
  · exact ⟨[], n, h, by rw [natChars_lt10 h]; rfl⟩
  · exact ⟨natChars (n / 10), n % 10, Nat.mod_lt n (by omega), natChars_ge10 (by omega)⟩

theorem printChars_last (v : JValue) :
    ∃ t c, printChars v = t ++ [c] ∧ isWs c = false := by
  cases v with
  | null => exact ⟨['n', 'u', 'l'], 'l', by simp [printChars], by decide⟩
  | jbool b =>
    cases b with
    | true => exact ⟨['t', 'r', 'u'], 'e', by simp [printChars], by decide⟩
    | false => exact ⟨['f', 'a', 'l', 's'], 'e', by simp [printChars], by decide⟩
  | jnum n =>
    by_cases hn : n < 0
    · obtain ⟨t, d, hd, ht⟩ := natChars_concat (-n).toNat
      refine ⟨'-' :: t, digitChar d, ?_, digitChar_not_ws d hd⟩
      rw [printChars]
      rw [printInt, if_pos hn, ht]
      rfl
    · obtain ⟨t, d, hd, ht⟩ := natChars_concat n.toNat
      refine ⟨t, digitChar d, ?_, digitChar_not_ws d hd⟩
      rw [printChars]
      rw [printInt, if_neg hn, ht]
  | jstr s =>
    exact ⟨'"' :: escapeChars s.data, '"', by simp [printChars, printStrChars], by decide⟩
  | jarr xs => exact ⟨'[' :: printItems xs, ']', by simp [printChars], by decide⟩
  | jobj kvs => exact ⟨'{' :: printPairs kvs, '}', by simp [printChars], by decide⟩

theorem stripChars_printChars (v : JValue) :
    stripChars (printChars v) = printChars v := by
  obtain ⟨c, t, hct, hcw, -, -⟩ := printChars_head v
  obtain ⟨t2, c2, hct2, hcw2⟩ := printChars_last v
  have h1 : List.dropWhile isWs (printChars v) = printChars v := by
    rw [hct]
    simp [List.dropWhile_cons, hcw]
  have h2 : List.dropWhile isWs (printChars v).reverse = (printChars v).reverse := by
    rw [hct2]
    simp [List.dropWhile_cons, hcw2]
  unfold stripChars
  rw [h1, h2, List.reverse_reverse]

theorem printItems_head (x : JValue) (xs : List JValue) :
    ∃ c t, printItems (x :: xs) = c :: t ∧ isWs c = false ∧ c ≠ ']' ∧ c ≠ '}' := by
  obtain ⟨c, t, hct, h1, h2, h3⟩ := printChars_head x
  cases xs with
  | nil => exact ⟨c, t, by simp [printItems, hct], h1, h2, h3⟩
  | cons y ys =>
    exact ⟨c, t ++ ',' :: printItems (y :: ys), by simp [printItems, hct], h1, h2, h3⟩

theorem printPairs_head (kv : String × JValue) (kvs : List (String × JValue)) :
    ∃ t, printPairs (kv :: kvs) = '"' :: t := by
  obtain ⟨k, v⟩ := kv
  cases kvs with
  | nil =>
    exact ⟨escapeChars k.data ++ ['"'] ++ ':' :: printChars v,
      by simp [printPairs, printStrChars]⟩
  | cons kv2 kvs' =>
    exact ⟨escapeChars k.data ++ ['"'] ++ ':' :: printChars v ++ ',' :: printPairs (kv2 :: kvs'),
      by simp [printPairs, printStrChars]⟩

/-! ## Parser round-trip -/

theorem cost_pos (v : JValue) : 1 ≤ cost v := by
  cases v with
  | null => simp [cost]
  | jbool b => simp [cost]
  | jnum n => simp [cost]
  | jstr s => simp [cost]
  | jarr xs => cases xs <;> simp [cost]
  | jobj kvs => cases kvs <;> simp [cost]

theorem parseVal_arr_open (fuel : Nat) (c : Char) (cs : List Char)
    (hws : isWs c = false) (hne : c ≠ ']') :
    parseVal (fuel + 1) ('[' :: c :: cs) =
      (fun p => (JValue.jarr p.1, p.2)) <$> parseItems fuel (c :: cs) := by
  show (match skipWs (c :: cs) with
    | ']' :: r => some (JValue.jarr [], r)
    | r => (fun (p : List JValue × List Char) => (JValue.jarr p.1, p.2)) <$>
      parseItems fuel r) = _
  rw [skipWs_cons_of_not_ws hws]
  split
  · rename_i r heq
    obtain ⟨h1, -⟩ := List.cons.inj heq
    exact absurd h1 hne
  · rfl

theorem parseVal_obj_open (fuel : Nat) (c : Char) (cs : List Char)
    (hws : isWs c = false) (hne : c ≠ '}') :
    parseVal (fuel + 1) ('{' :: c :: cs) =
      (fun p => (JValue.jobj p.1, p.2)) <$> parseMembers fuel [] (c :: cs) := by
  show (match skipWs (c :: cs) with
    | '}' :: r => some (JValue.jobj [], r)
    | r => (fun (p : Record × List Char) => (JValue.jobj p.1, p.2)) <$>
      parseMembers fuel [] r) = _
  rw [skipWs_cons_of_not_ws hws]
  split
  · rename_i r heq
    obtain ⟨h1, -⟩ := List.cons.inj heq
    exact absurd h1 hne
  · rfl

theorem parseVal_num_head (fuel : Nat) (c : Char) (cs : List Char)
    (hc : isDigitChar c = true ∨ c = '-') :
    parseVal (fuel + 1) (c :: cs) = parseNum (c :: cs) := by
  have hcn : c.toNat = 45 ∨ (48 ≤ c.toNat ∧ c.toNat ≤ 57) := by
    rcases hc with h | h
    · right
      simpa [isDigitChar, Bool.and_eq_true, decide_eq_true_eq] using h
    · left
      subst h
      decide
  simp only [parseVal]
  split
  all_goals try rfl
  all_goals
    (exfalso
     rename_i heq
     obtain ⟨h1, -⟩ := List.cons.inj heq
     subst h1
     revert hcn
     decide)

mutual

theorem parseVal_print (v : JValue) (fuel : Nat) (rest : List Char)
    (hfuel : cost v ≤ fuel) (hwf : wfVal v = true) (hrest : headNotDigit rest = true) :
    parseVal fuel (printChars v ++ rest) = some (v, rest) := by
  obtain ⟨f, rfl⟩ : ∃ f, fuel = f + 1 := ⟨fuel - 1, by have := cost_pos v; omega⟩
  cases v with
  | null =>
    rw [show printChars .null ++ rest = 'n' :: 'u' :: 'l' :: 'l' :: rest from by
      simp [printChars]]
    rfl
  | jbool b =>
    cases b with
    | true =>
      rw [show printChars (.jbool true) ++ rest = 't' :: 'r' :: 'u' :: 'e' :: rest from by
        simp [printChars]]
      rfl
    | false =>
      rw [show printChars (.jbool false) ++ rest
          = 'f' :: 'a' :: 'l' :: 's' :: 'e' :: rest from by simp [printChars]]
      rfl
  | jnum n =>
    obtain ⟨c, t, hct, hc⟩ := printInt_head n
    rw [show printChars (.jnum n) = printInt n from by rw [printChars]]
    rw [hct, List.cons_append, parseVal_num_head f c (t ++ rest) hc,
      ← List.cons_append, ← hct]
    exact parseNum_print n rest hrest
  | jstr s =>
    rw [show printChars (.jstr s) ++ rest
        = '"' :: (escapeChars s.data ++ '"' :: rest) from by
      simp [printChars, printStrChars]]
    show (fun p => (JValue.jstr ⟨p.1⟩, p.2)) <$>
      parseStrBody (escapeChars s.data ++ '"' :: rest) = _
    rw [parseStrBody_print s.data rest]
    rfl
  | jarr xs =>
    cases xs with
    | nil =>
      rw [show printChars (.jarr []) ++ rest = '[' :: ']' :: rest from by
        simp [printChars, printItems]]
      rfl
    | cons x xs' =>
      obtain ⟨c, t, hct, hw1, hw2, -⟩ := printItems_head x xs'
      have hwfl : wfList (x :: xs') = true := by simpa [wfVal] using hwf
      have hfuel2 : costItems (x :: xs') ≤ f := by
        have hc1 : cost (.jarr (x :: xs')) = 1 + costItems (x :: xs') := by simp [cost]
        omega
      rw [show printChars (.jarr (x :: xs')) ++ rest
          = '[' :: (printItems (x :: xs') ++ ']' :: rest) from by simp [printChars]]
      rw [hct, List.cons_append, parseVal_arr_open f c (t ++ ']' :: rest) hw1 hw2,
        ← List.cons_append, ← hct]
      rw [parseItems_print (x :: xs') f rest (by simp) hfuel2 hwfl]
      rfl
  | jobj kvs =>
    cases kvs with
    | nil =>
      rw [show printChars (.jobj []) ++ rest = '{' :: '}' :: rest from by
        simp [printChars, printPairs]]
      rfl
    | cons kv kvs' =>
      obtain ⟨t, ht⟩ := printPairs_head kv kvs'
      have hsplit : keysNodup (kv :: kvs') = true ∧ wfPairs (kv :: kvs') = true := by
        simpa [wfVal, Bool.and_eq_true] using hwf
      have hfuel2 : costPairs (kv :: kvs') ≤ f := by
        have hc1 : cost (.jobj (kv :: kvs')) = 1 + costPairs (kv :: kvs') := by simp [cost]
        omega
      rw [show printChars (.jobj (kv :: kvs')) ++ rest
          = '{' :: (printPairs (kv :: kvs') ++ '}' :: rest) from by simp [printChars]]
      rw [ht, List.cons_append,
        parseVal_obj_open f '"' (t ++ '}' :: rest) (by decide) (by decide),
        ← List.cons_append, ← ht]
      rw [parseMembers_print (kv :: kvs') f [] rest (by simp) hfuel2 hsplit.2 hsplit.1
        (fun k v _ => rfl)]
      rfl

theorem parseItems_print (xs : List JValue) (fuel : Nat) (rest : List Char)
    (hne : xs ≠ []) (hfuel : costItems xs ≤ fuel) (hwf : wfList xs = true) :
    parseItems fuel (printItems xs ++ ']' :: rest) = some (xs, rest) := by
  cases xs with
  | nil => exact absurd rfl hne
  | cons x xs2 =>
    cases xs2 with
    | nil =>
      obtain ⟨f, rfl⟩ : ∃ f, fuel = f + 1 := ⟨fuel - 1, by
        have h1 : costItems [x] = 1 + cost x + costItems [] := by simp [costItems]
        have h2 : costItems ([] : List JValue) = 0 := by simp [costItems]
        omega⟩
      have hfx : cost x ≤ f := by
        have h1 : costItems [x] = 1 + cost x + costItems [] := by simp [costItems]
        have h2 : costItems ([] : List JValue) = 0 := by simp [costItems]
        omega
      have hwx : wfVal x = true := by simpa [wfList] using hwf
      rw [show printItems [x] ++ ']' :: rest = printChars x ++ ']' :: rest from by
        simp [printItems]]
      show (match parseVal f (printChars x ++ ']' :: rest) with
        | some (v, r) =>
          (match skipWs r with
           | ',' :: r2 => (fun p => (v :: p.1, p.2)) <$> parseItems f (skipWs r2)
           | ']' :: r2 => some ([v], r2)
           | _ => none)
        | none => none) = some ([x], rest)
      rw [parseVal_print x f (']' :: rest) hfx hwx rfl]
      rfl
    | cons y xs' =>
      obtain ⟨f, rfl⟩ : ∃ f, fuel = f + 1 := ⟨fuel - 1, by
        have h1 : costItems (x :: y :: xs') = 1 + cost x + costItems (y :: xs') := by
          simp [costItems]
        omega⟩
      have h1 : costItems (x :: y :: xs') = 1 + cost x + costItems (y :: xs') := by
        simp [costItems]
      have hfx : cost x ≤ f := by omega
      have hfr : costItems (y :: xs') ≤ f := by
        have := cost_pos x
        omega
      have hwx : wfVal x = true ∧ wfList (y :: xs') = true := by
        simpa [wfList, Bool.and_eq_true] using hwf
      rw [show printItems (x :: y :: xs') ++ ']' :: rest
          = printChars x ++ (',' :: (printItems (y :: xs') ++ ']' :: rest)) from by
        simp [printItems]]
      show (match parseVal f
          (printChars x ++ ',' :: (printItems (y :: xs') ++ ']' :: rest)) with
        | some (v, r) =>
          (match skipWs r with
           | ',' :: r2 => (fun p => (v :: p.1, p.2)) <$> parseItems f (skipWs r2)
           | ']' :: r2 => some ([v], r2)
           | _ => none)
        | none => none) = some (x :: y :: xs', rest)
      rw [parseVal_print x f (',' :: (printItems (y :: xs') ++ ']' :: rest)) hfx hwx.1 rfl]
      show ((fun p => (x :: p.1, p.2)) <$> parseItems f
        (skipWs (printItems (y :: xs') ++ ']' :: rest))) = some (x :: y :: xs', rest)
      obtain ⟨c, t, hct, hcw, -, -⟩ := printItems_head y xs'
      rw [show skipWs (printItems (y :: xs') ++ ']' :: rest)
          = printItems (y :: xs') ++ ']' :: rest from by
        rw [hct, List.cons_append]
        exact skipWs_cons_of_not_ws hcw]
      rw [parseItems_print (y :: xs') f rest (by simp) hfr hwx.2]
      rfl

theorem parseMembers_print (kvs : List (String × JValue)) (fuel : Nat) (acc : Record)
    (rest : List Char) (hne : kvs ≠ []) (hfuel : costPairs kvs ≤ fuel)
    (hwf : wfPairs kvs = true) (hnodup : keysNodup kvs = true)
    (hdisj : ∀ k v, (k, v) ∈ kvs → hasKey acc k = false) :
    parseMembers fuel acc (printPairs kvs ++ '}' :: rest) = some (acc ++ kvs, rest) := by
  cases kvs with
  | nil => exact absurd rfl hne
  | cons kv kvs2 =>
    obtain ⟨k, v⟩ := kv
    cases kvs2 with
    | nil =>
      obtain ⟨f, rfl⟩ : ∃ f, fuel = f + 1 := ⟨fuel - 1, by
        have h1 : costPairs [(k, v)] = 1 + cost v + costPairs [] := by simp [costPairs]
        have h2 : costPairs ([] : List (String × JValue)) = 0 := by simp [costPairs]
        omega⟩
      have hfv : cost v ≤ f := by
        have h1 : costPairs [(k, v)] = 1 + cost v + costPairs [] := by simp [costPairs]
        have h2 : costPairs ([] : List (String × JValue)) = 0 := by simp [costPairs]
        omega
      have hwv : wfVal v = true := by simpa [wfPairs] using hwf
      rw [show printPairs [(k, v)] ++ '}' :: rest
          = '"' :: (escapeChars k.data ++ '"' :: (':' :: (printChars v ++ '}' :: rest)))
          from by simp [printPairs, printStrChars]]
      show (match parseStrBody
          (escapeChars k.data ++ '"' :: (':' :: (printChars v ++ '}' :: rest))) with
        | some (kcs, r) =>
          (match skipWs r with
           | ':' :: r2 =>
             (match parseVal f (skipWs r2) with
              | some (v', r3) =>
                (match skipWs r3 with
                 | ',' :: r4 => parseMembers f (setKey acc ⟨kcs⟩ v') (skipWs r4)
                 | '}' :: r4 => some (setKey acc ⟨kcs⟩ v', r4)
                 | _ => none)
              | none => none)
           | _ => none)
        | none => none) = some (acc ++ [(k, v)], rest)
      rw [parseStrBody_print k.data (':' :: (printChars v ++ '}' :: rest))]
      show (match parseVal f (skipWs (printChars v ++ '}' :: rest)) with
        | some (v', r3) =>
          (match skipWs r3 with
           | ',' :: r4 => parseMembers f (setKey acc ⟨k.data⟩ v') (skipWs r4)
           | '}' :: r4 => some (setKey acc ⟨k.data⟩ v', r4)
           | _ => none)
        | none => none) = some (acc ++ [(k, v)], rest)
      obtain ⟨c, t, hct, hcw, -, -⟩ := printChars_head v
      rw [show skipWs (printChars v ++ '}' :: rest) = printChars v ++ '}' :: rest from by
        rw [hct, List.cons_append]
        exact skipWs_cons_of_not_ws hcw]
      rw [parseVal_print v f ('}' :: rest) hfv hwv rfl]
      show some (setKey acc ⟨k.data⟩ v, rest) = some (acc ++ [(k, v)], rest)
      rw [show (⟨k.data⟩ : String) = k from rfl]
      rw [setKey_of_not_hasKey acc k v (hdisj k v (by simp))]
    | cons kv2 kvs' =>
      obtain ⟨f, rfl⟩ : ∃ f, fuel = f + 1 := ⟨fuel - 1, by
        have h1 : costPairs ((k, v) :: kv2 :: kvs')
            = 1 + cost v + costPairs (kv2 :: kvs') := by simp [costPairs]
        omega⟩
      have h1 : costPairs ((k, v) :: kv2 :: kvs')
          = 1 + cost v + costPairs (kv2 :: kvs') := by simp [costPairs]
      have hfv : cost v ≤ f := by omega
      have hfr : costPairs (kv2 :: kvs') ≤ f := by
        have := cost_pos v
        omega
      have hwsplit : wfVal v = true ∧ wfPairs (kv2 :: kvs') = true := by
        simpa [wfPairs, Bool.and_eq_true] using hwf
      have hnd : hasKey (kv2 :: kvs') k = false ∧ keysNodup (kv2 :: kvs') = true := by
        simpa [keysNodup, Bool.and_eq_true, Bool.not_eq_true'] using hnodup
      rw [show printPairs ((k, v) :: kv2 :: kvs') ++ '}' :: rest
          = '"' :: (escapeChars k.data ++ '"' ::
            (':' :: (printChars v ++ ',' :: (printPairs (kv2 :: kvs') ++ '}' :: rest))))
          from by simp [printPairs, printStrChars]]
      show (match parseStrBody (escapeChars k.data ++ '"' ::
          (':' :: (printChars v ++ ',' :: (printPairs (kv2 :: kvs') ++ '}' :: rest)))) with
        | some (kcs, r) =>
          (match skipWs r with
           | ':' :: r2 =>
             (match parseVal f (skipWs r2) with
              | some (v', r3) =>
                (match skipWs r3 with
                 | ',' :: r4 => parseMembers f (setKey acc ⟨kcs⟩ v') (skipWs r4)
                 | '}' :: r4 => some (setKey acc ⟨kcs⟩ v', r4)
                 | _ => none)
              | none => none)
           | _ => none)
        | none => none) = some (acc ++ ((k, v) :: kv2 :: kvs'), rest)
      rw [parseStrBody_print k.data
        (':' :: (printChars v ++ ',' :: (printPairs (kv2 :: kvs') ++ '}' :: rest)))]
      show (match parseVal f
          (skipWs (printChars v ++ ',' :: (printPairs (kv2 :: kvs') ++ '}' :: rest))) with
        | some (v', r3) =>
          (match skipWs r3 with
           | ',' :: r4 => parseMembers f (setKey acc ⟨k.data⟩ v') (skipWs r4)
           | '}' :: r4 => some (setKey acc ⟨k.data⟩ v', r4)
           | _ => none)
        | none => none) = some (acc ++ ((k, v) :: kv2 :: kvs'), rest)
      obtain ⟨c, t, hct, hcw, -, -⟩ := printChars_head v
      rw [show skipWs (printChars v ++ ',' :: (printPairs (kv2 :: kvs') ++ '}' :: rest))
          = printChars v ++ ',' :: (printPairs (kv2 :: kvs') ++ '}' :: rest) from by
        rw [hct, List.cons_append]
        exact skipWs_cons_of_not_ws hcw]
      rw [parseVal_print v f
        (',' :: (printPairs (kv2 :: kvs') ++ '}' :: rest)) hfv hwsplit.1 rfl]
      show parseMembers f (setKey acc ⟨k.data⟩ v)
        (skipWs (printPairs (kv2 :: kvs') ++ '}' :: rest))
        = some (acc ++ ((k, v) :: kv2 :: kvs'), rest)
      obtain ⟨t2, ht2⟩ := printPairs_head kv2 kvs'
      rw [show skipWs (printPairs (kv2 :: kvs') ++ '}' :: rest)
          = printPairs (kv2 :: kvs') ++ '}' :: rest from by
        rw [ht2, List.cons_append]
        exact skipWs_cons_of_not_ws (by decide)]
      rw [show (⟨k.data⟩ : String) = k from rfl]
      rw [setKey_of_not_hasKey acc k v (hdisj k v (by simp))]
      have hdisj2 : ∀ k' v', (k', v') ∈ kv2 :: kvs' →
          hasKey (acc ++ [(k, v)]) k' = false := by
        intro k' v' hm
        rw [hasKey_append]
        have hk1 : hasKey acc k' = false := hdisj k' v' (by simp [hm])
        have hk2 : k' ≠ k := not_hasKey_ne (kv2 :: kvs') k k' v' hnd.1 hm
        have hk3 : ¬k = k' := fun he => hk2 he.symm
        simp [hk1, hasKey, hk3]
      rw [parseMembers_print (kv2 :: kvs') f (acc ++ [(k, v)]) rest (by simp) hfr
        hwsplit.2 hnd.2 hdisj2]
      rw [List.append_assoc]
      rfl

end

/-! ## Whole-document round-trip -/

theorem printInt_ne_nil (n : Int) : printInt n ≠ [] := by
  rw [printInt]
  split
  · simp
  · exact natChars_ne_nil _

mutual

theorem cost_le_len (v : JValue) : cost v ≤ (printChars v).length := by
  cases v with
  | null => simp [cost, printChars]
  | jbool b => cases b <;> simp [cost, printChars]
  | jnum n =>
    have h1 : printChars (.jnum n) = printInt n := by rw [printChars]
    have h2 : 1 ≤ (printInt n).length :=
      List.length_pos.mpr (printInt_ne_nil n)
    have h3 : cost (.jnum n) = 1 := by simp [cost]
    rw [h3, h1]
    exact h2
  | jstr s => simp [cost, printChars, printStrChars]
  | jarr xs =>
    cases xs with
    | nil => simp [cost, printChars, printItems]
    | cons x xs' =>
      have h1 := costItems_le_len (x :: xs')
      have h2 : cost (.jarr (x :: xs')) = 1 + costItems (x :: xs') := by simp [cost]
      have h3 : (printChars (.jarr (x :: xs'))).length
          = (printItems (x :: xs')).length + 2 := by simp [printChars]
      omega
  | jobj kvs =>
    cases kvs with
    | nil => simp [cost, printChars, printPairs]
    | cons kv kvs' =>
      have h1 := costPairs_le_len (kv :: kvs')
      have h2 : cost (.jobj (kv :: kvs')) = 1 + costPairs (kv :: kvs') := by simp [cost]
      have h3 : (printChars (.jobj (kv :: kvs'))).length
          = (printPairs (kv :: kvs')).length + 2 := by simp [printChars]
      omega

theorem costItems_le_len (xs : List JValue) :
    costItems xs ≤ (printItems xs).length + 1 := by
  cases xs with
  | nil => simp [costItems, printItems]
  | cons x xs2 =>
    cases xs2 with
    | nil =>
      have h1 := cost_le_len x
      have h2 : costItems [x] = 1 + cost x + costItems [] := by simp [costItems]
      have h3 : costItems ([] : List JValue) = 0 := by simp [costItems]
      have h4 : (printItems [x]).length = (printChars x).length := by simp [printItems]
      omega
    | cons y xs' =>
      have h1 := cost_le_len x
      have h2 := costItems_le_len (y :: xs')
      have h3 : costItems (x :: y :: xs') = 1 + cost x + costItems (y :: xs') := by
        simp [costItems]
      have h4 : (printItems (x :: y :: xs')).length
          = (printChars x).length + 1 + (printItems (y :: xs')).length := by
        simp [printItems]
        omega
      omega

theorem costPairs_le_len (kvs : List (String × JValue)) :
    costPairs kvs ≤ (printPairs kvs).length + 1 := by
  cases kvs with
  | nil => simp [costPairs, printPairs]
  | cons kv kvs2 =>
    obtain ⟨k, v⟩ := kv
    cases kvs2 with
    | nil =>
      have h1 := cost_le_len v
      have h2 : costPairs [(k, v)] = 1 + cost v + costPairs [] := by simp [costPairs]
      have h3 : costPairs ([] : List (String × JValue)) = 0 := by simp [costPairs]
      have h4 : (printPairs [(k, v)]).length
          = (printStrChars k).length + 1 + (printChars v).length := by
        simp [printPairs]
        omega
      omega
    | cons kv2 kvs' =>
      have h1 := cost_le_len v
      have h2 := costPairs_le_len (kv2 :: kvs')
      have h3 : costPairs ((k, v) :: kv2 :: kvs')
          = 1 + cost v + costPairs (kv2 :: kvs') := by simp [costPairs]
      have h4 : (printPairs ((k, v) :: kv2 :: kvs')).length
          = (printStrChars k).length + 1 + (printChars v).length + 1
            + (printPairs (kv2 :: kvs')).length := by
        simp [printPairs]
        omega
      omega

end

theorem parseDoc_print (v : JValue) (hwf : wfVal v = true) :
    parseDoc (printChars v) = some v := by
  obtain ⟨c, t, hct, hcw, -, -⟩ := printChars_head v
  have hskip : skipWs (printChars v) = printChars v := by
    rw [hct]
    exact skipWs_cons_of_not_ws hcw
  have hfuel : cost v ≤ (printChars v).length + 1 := by
    have := cost_le_len v
    omega
  have h2 : parseVal ((printChars v).length + 1) (printChars v ++ []) = some (v, []) :=
    parseVal_print v _ [] hfuel hwf rfl
  rw [List.append_nil] at h2
  unfold parseDoc
  rw [hskip, h2]
  rfl

theorem loads_dumps (v : JValue) (hwf : wfVal v = true) : loads (dumps v) = some v := by
  show parseDoc (printChars v) = some v
  exact parseDoc_print v hwf

theorem asRecords_map (data : List Record) : asRecords (data.map .jobj) = some data := by
  induction data with
  | nil => rfl
  | cons r rs ih => simp [asRecords, ih]

theorem load_some (s : String) :
    ManuscriptDB.load (some s) =
      (if stripChars s.data = [] then .ok []
       else
         match parseDoc (stripChars s.data) with
         | none => .error .malformed
         | some (.jarr xs) =>
           match asRecords xs with
           | some rs => .ok rs
           | none => .error .notRecordArray
         | some _ => .error .notRecordArray) := rfl

/-! ## Filter and aggregation characterizations -/

theorem checkParam_iff (e : Record) (lk nk : String) (p : Option String)
    (hp : ∀ s, p = some s → s ≠ "") :
    ManuscriptDB.checkParam e lk nk p = true ↔ claimCheck p e lk nk := by
  cases p with
  | none =>
    simp only [ManuscriptDB.checkParam, claimCheck]
    constructor
    · intro _ s hs
      exact absurd hs (by simp)
    · intro _
      trivial
  | some s =>
    have hs : ¬s = "" := hp s rfl
    simp only [ManuscriptDB.checkParam, if_neg hs]
    unfold ManuscriptDB.anyName
    rw [List.any_eq_true]
    unfold claimCheck
    constructor
    · rintro ⟨m, hm1, hm2⟩ s' hs'
      obtain rfl : s = s' := by injection hs'
      refine ⟨m, hm1, ?_⟩
      rcases hgv : getKey m nk with - | v
      · rw [hgv] at hm2
        simp at hm2
      · cases v with
        | jstr t =>
          rw [hgv] at hm2
          simp at hm2
          subst hm2
          rfl
        | null => rw [hgv] at hm2; simp at hm2
        | jbool b => rw [hgv] at hm2; simp at hm2
        | jnum n2 => rw [hgv] at hm2; simp at hm2
        | jarr a => rw [hgv] at hm2; simp at hm2
        | jobj o => rw [hgv] at hm2; simp at hm2
    · intro hcc
      obtain ⟨m, hm1, hm2⟩ := hcc s rfl
      refine ⟨m, hm1, ?_⟩
      rw [hm2]
      simp

theorem mem_namesIn (e : Record) (lk nk : String) (s : String) :
    s ∈ ManuscriptDB.namesIn e lk nk ↔
      s ≠ "" ∧ ∃ m ∈ ManuscriptDB.subEntries e lk, getKey m nk = some (.jstr s) := by
  unfold ManuscriptDB.namesIn
  rw [List.mem_filterMap]
  constructor
  · rintro ⟨m, hm1, hm2⟩
    rcases hgv : getKey m nk with - | v
    · rw [hgv] at hm2
      simp [ManuscriptDB.truthyName] at hm2
    · cases v with
      | jstr t =>
        rw [hgv] at hm2
        by_cases ht : t = ""
        · simp [ManuscriptDB.truthyName, ht] at hm2
        · simp [ManuscriptDB.truthyName, ht] at hm2
          subst hm2
          exact ⟨ht, m, hm1, hgv⟩
      | null => rw [hgv] at hm2; simp [ManuscriptDB.truthyName] at hm2
      | jbool b => rw [hgv] at hm2; simp [ManuscriptDB.truthyName] at hm2
      | jnum n2 => rw [hgv] at hm2; simp [ManuscriptDB.truthyName] at hm2
      | jarr a => rw [hgv] at hm2; simp [ManuscriptDB.truthyName] at hm2
      | jobj o => rw [hgv] at hm2; simp [ManuscriptDB.truthyName] at hm2
  · rintro ⟨hs, m, hm1, hm2⟩
    refine ⟨m, hm1, ?_⟩
    rw [hm2]
    simp [ManuscriptDB.truthyName, hs]

theorem sortDedup_names_spec (data : List Record) (lk nk : String) :
    (sortDedup (data.flatMap fun e => ManuscriptDB.namesIn e lk nk)).Pairwise
        (fun a b => strLt a b = true) ∧
    (sortDedup (data.flatMap fun e => ManuscriptDB.namesIn e lk nk)).Nodup ∧
    (∀ s : String, s ∈ sortDedup (data.flatMap fun e => ManuscriptDB.namesIn e lk nk) ↔
      s ≠ "" ∧ ∃ e ∈ data, ∃ m ∈ ManuscriptDB.subEntries e lk,
        getKey m nk = some (.jstr s)) := by
  refine ⟨sortDedup_pairwise _, sortDedup_nodup _, ?_⟩
  intro s
  rw [mem_sortDedup, List.mem_flatMap]
  constructor
  · rintro ⟨e, he, hs⟩
    obtain ⟨h1, m, hm1, hm2⟩ := (mem_namesIn e lk nk s).mp hs
    exact ⟨h1, e, he, m, hm1, hm2⟩
  · rintro ⟨h1, e, he, m, hm1, hm2⟩
    exact ⟨e, he, (mem_namesIn e lk nk s).mpr ⟨h1, m, hm1, hm2⟩⟩

/-! ## Claims -/

/-- Claim C1: for every store state and every combination of the optional
parameters (with a provided value being a non-empty name; the empty string is
the separate wildcard case of C9), `filter` returns exactly the ordered
subsequence of records matching the specification predicate `claimMatches`:
for every provided parameter some sub-entry of the corresponding list has a
name exactly (case-sensitively) equal to it, parameters combine by AND, and
no parameters returns all records. -/
theorem filter_matches_spec (model dataset metric : Option String) (data : List Record)
    (_hwf : ManuscriptDB.dataWF data = true)
    (hm : ∀ s, model = some s → s ≠ "")
    (hd : ∀ s, dataset = some s → s ≠ "")
    (hmt : ∀ s, metric = some s → s ≠ "") :
    ManuscriptDB.filter model dataset metric data
        = data.filter (ManuscriptDB.entryMatches model dataset metric) ∧
    (∀ e ∈ data, ManuscriptDB.entryMatches model dataset metric e = true ↔
      claimMatches model dataset metric e) ∧
    ManuscriptDB.filter none none none data = data := by
  refine ⟨rfl, ?_, ?_⟩
  · intro e _
    have i1 := checkParam_iff e "methods" "model_name" model hm
    have i2 := checkParam_iff e "datasets" "name" dataset hd
    have i3 := checkParam_iff e "metrics" "name" metric hmt
    unfold ManuscriptDB.entryMatches claimMatches
    constructor
    · intro h
      simp only [Bool.and_eq_true] at h
      exact ⟨i1.mp h.1.1, i2.mp h.1.2, i3.mp h.2⟩
    · rintro ⟨a, b, c⟩
      simp only [Bool.and_eq_true]
      exact ⟨⟨i1.mpr a, i2.mpr b⟩, i3.mpr c⟩
  · unfold ManuscriptDB.filter
    exact List.filter_eq_self.mpr fun e _ => by
      simp [ManuscriptDB.entryMatches, ManuscriptDB.checkParam]

/-- Witness for C1: a concrete two-record store with `model="M1"`. -/
theorem filter_matches_spec_witness :
    ManuscriptDB.dataWF
        [[("methods", .jarr [.jobj [("model_name", .jstr "M1")]])],
         [("methods", .jarr [.jobj [("model_name", .jstr "M2")]])]] = true ∧
    ManuscriptDB.filter (some "M1") none none
        [[("methods", .jarr [.jobj [("model_name", .jstr "M1")]])],
         [("methods", .jarr [.jobj [("model_name", .jstr "M2")]])]]
      = List.filter (ManuscriptDB.entryMatches (some "M1") none none)
          [[("methods", .jarr [.jobj [("model_name", .jstr "M1")]])],
           [("methods", .jarr [.jobj [("model_name", .jstr "M2")]])]] ∧
    ManuscriptDB.filter none none none
        [[("methods", .jarr [.jobj [("model_name", .jstr "M1")]])],
         [("methods", .jarr [.jobj [("model_name", .jstr "M2")]])]]
      = [[("methods", .jarr [.jobj [("model_name", .jstr "M1")]])],
         [("methods", .jarr [.jobj [("model_name", .jstr "M2")]])]] := by
  have hm : ∀ s, (some "M1" : Option String) = some s → s ≠ "" := by
    intro s hs
    injection hs with h
    subst h
    decide
  have hnone : ∀ s : String, (none : Option String) = some s → s ≠ "" := by
    intro s hs
    exact absurd hs (by simp)
  refine ⟨rfl, ?_, ?_⟩
  · exact (filter_matches_spec (some "M1") none none
      [[("methods", .jarr [.jobj [("model_name", .jstr "M1")]])],
       [("methods", .jarr [.jobj [("model_name", .jstr "M2")]])]] rfl hm hnone hnone).1
  · exact (filter_matches_spec (some "M1") none none
      [[("methods", .jarr [.jobj [("model_name", .jstr "M1")]])],
       [("methods", .jarr [.jobj [("model_name", .jstr "M2")]])]] rfl hm hnone hnone).2.2

/-- Claim C2: `edit` and `delete` with an index outside `[0, len)` return the
IndexOutOfRange error and leave the whole store — the in-memory list and the
backing file — exactly as it was. -/
theorem edit_delete_invalid_index (db : DB) (i : Int) (u : Record)
    (h : i < 0 ∨ (db.data.length : Int) ≤ i) :
    ManuscriptDB.edit db i u = (db, some .indexOutOfRange) ∧
    ManuscriptDB.delete db i = (db, some .indexOutOfRange) := by
  unfold ManuscriptDB.edit ManuscriptDB.delete
  rw [if_pos h, if_pos h]
  exact ⟨rfl, rfl⟩

/-- Witness for C2: index 5 on an empty store. -/
theorem edit_delete_invalid_index_witness :
    ((5 : Int) < 0 ∨ ((([] : List Record).length : Int) ≤ 5)) ∧
    ManuscriptDB.edit ⟨[], none⟩ 5 [] = (⟨[], none⟩, some .indexOutOfRange) ∧
    ManuscriptDB.delete ⟨[], none⟩ 5 = (⟨[], none⟩, some .indexOutOfRange) :=
  ⟨Or.inr (by decide),
   (edit_delete_invalid_index ⟨[], none⟩ 5 [] (Or.inr (by decide))).1,
   (edit_delete_invalid_index ⟨[], none⟩ 5 [] (Or.inr (by decide))).2⟩

/-- Claim C3: `list_fields` returns, for models, datasets and metrics, the
set of distinct non-empty name values over all sub-entries of all records,
as a lexicographically sorted sequence without duplicates. -/
theorem list_fields_spec (data : List Record)
    (_hwf : ManuscriptDB.dataWF data = true)
    (_hnames : ManuscriptDB.namesWF data = true) :
    ((ManuscriptDB.list_fields data).models.Pairwise (fun a b => strLt a b = true) ∧
      (ManuscriptDB.list_fields data).models.Nodup ∧
      (∀ s : String, s ∈ (ManuscriptDB.list_fields data).models ↔
        s ≠ "" ∧ ∃ e ∈ data, ∃ m ∈ ManuscriptDB.subEntries e "methods",
          getKey m "model_name" = some (.jstr s))) ∧
    ((ManuscriptDB.list_fields data).datasets.Pairwise (fun a b => strLt a b = true) ∧
      (ManuscriptDB.list_fields data).datasets.Nodup ∧
      (∀ s : String, s ∈ (ManuscriptDB.list_fields data).datasets ↔
        s ≠ "" ∧ ∃ e ∈ data, ∃ m ∈ ManuscriptDB.subEntries e "datasets",
          getKey m "name" = some (.jstr s))) ∧
    ((ManuscriptDB.list_fields data).metrics.Pairwise (fun a b => strLt a b = true) ∧
      (ManuscriptDB.list_fields data).metrics.Nodup ∧
      (∀ s : String, s ∈ (ManuscriptDB.list_fields data).metrics ↔
        s ≠ "" ∧ ∃ e ∈ data, ∃ m ∈ ManuscriptDB.subEntries e "metrics",
          getKey m "name" = some (.jstr s))) := by
  refine ⟨?_, ?_, ?_⟩
  · exact sortDedup_names_spec data "methods" "model_name"
  · exact sortDedup_names_spec data "datasets" "name"
  · exact sortDedup_names_spec data "metrics" "name"

/-- Witness for C3: a store in which "M1" occurs twice. -/
theorem list_fields_spec_witness :
    ManuscriptDB.dataWF
        [[("methods", .jarr [.jobj [("model_name", .jstr "M1")]]),
          ("datasets", .jarr [.jobj [("name", .jstr "D1")]])],
         [("methods", .jarr [.jobj [("model_name", .jstr "M1")]])]] = true ∧
    ManuscriptDB.namesWF
        [[("methods", .jarr [.jobj [("model_name", .jstr "M1")]]),
          ("datasets", .jarr [.jobj [("name", .jstr "D1")]])],
         [("methods", .jarr [.jobj [("model_name", .jstr "M1")]])]] = true ∧
    (ManuscriptDB.list_fields
        [[("methods", .jarr [.jobj [("model_name", .jstr "M1")]]),
          ("datasets", .jarr [.jobj [("name", .jstr "D1")]])],
         [("methods", .jarr [.jobj [("model_name", .jstr "M1")]])]]).models.Nodup ∧
    (ManuscriptDB.list_fields
        [[("methods", .jarr [.jobj [("model_name", .jstr "M1")]]),
          ("datasets", .jarr [.jobj [("name", .jstr "D1")]])],
         [("methods", .jarr [.jobj [("model_name", .jstr "M1")]])]]).datasets.Nodup :=
  ⟨rfl, rfl,
   (list_fields_spec
      [[("methods", .jarr [.jobj [("model_name", .jstr "M1")]]),
        ("datasets", .jarr [.jobj [("name", .jstr "D1")]])],
       [("methods", .jarr [.jobj [("model_name", .jstr "M1")]])]] rfl rfl).1.2.1,
   (list_fields_spec
      [[("methods", .jarr [.jobj [("model_name", .jstr "M1")]]),
        ("datasets", .jarr [.jobj [("name", .jstr "D1")]])],
       [("methods", .jarr [.jobj [("model_name", .jstr "M1")]])]] rfl rfl).2.1.2.1⟩

/-- Claim C4: `edit` at a valid index merges the updates into the addressed
record by a shallow `dict.update`: updated keys take the update's value
wholesale, other keys keep their value, every other position is untouched,
and an empty update leaves the record list unchanged. -/
theorem edit_valid_spec (db : DB) (i : Int) (u : Record)
    (h1 : 0 ≤ i) (h2 : i < (db.data.length : Int))
    (hu : keysNodup u = true) :
    (ManuscriptDB.edit db i u).2 = none ∧
    (ManuscriptDB.edit db i u).1.data.length = db.data.length ∧
    (∀ j : Nat, j ≠ i.toNat → (ManuscriptDB.edit db i u).1.data[j]? = db.data[j]?) ∧
    (ManuscriptDB.edit db i u).1.data[i.toNat]?
      = some (dictUpdate (db.data.getD i.toNat []) u) ∧
    (∀ k, hasKey u k = true →
      getKey (dictUpdate (db.data.getD i.toNat []) u) k = getKey u k) ∧
    (∀ k, hasKey u k = false →
      getKey (dictUpdate (db.data.getD i.toNat []) u) k
        = getKey (db.data.getD i.toNat []) k) ∧
    (ManuscriptDB.edit db i []).1.data = db.data ∧
    (ManuscriptDB.edit db i []).2 = none := by
  have hcond : ¬(i < 0 ∨ (db.data.length : Int) ≤ i) := by omega
  have hlt : i.toNat < db.data.length := by omega
  have hedit : ManuscriptDB.edit db i u =
      (ManuscriptDB.save
        ⟨db.data.set i.toNat (dictUpdate (db.data.getD i.toNat []) u), db.file⟩,
       none) := by
    unfold ManuscriptDB.edit
    rw [if_neg hcond]
  have hedit0 : ManuscriptDB.edit db i [] =
      (ManuscriptDB.save
        ⟨db.data.set i.toNat (dictUpdate (db.data.getD i.toNat []) []), db.file⟩,
       none) := by
    unfold ManuscriptDB.edit
    rw [if_neg hcond]
  refine ⟨by rw [hedit], ?_, ?_, ?_, ?_, ?_, ?_, by rw [hedit0]⟩
  · rw [hedit]
    show (db.data.set i.toNat _).length = _
    simp [List.length_set]
  · intro j hj
    rw [hedit]
    show (db.data.set i.toNat _)[j]? = _
    exact List.getElem?_set_ne fun he => hj he.symm
  · rw [hedit]
    show (db.data.set i.toNat _)[i.toNat]? = _
    exact List.getElem?_set_self hlt
  · intro k hk
    rw [getKey_dictUpdate u hu, if_pos hk]
  · intro k hk
    rw [getKey_dictUpdate u hu, if_neg (by simp [hk])]
  · rw [hedit0]
    show db.data.set i.toNat (dictUpdate (db.data.getD i.toNat []) []) = db.data
    rw [dictUpdate_nil]
    apply List.ext_getElem?
    intro n
    by_cases hn : n = i.toNat
    · subst hn
      rw [List.getElem?_set_self hlt, List.getD_eq_getElem?_getD,
        List.getElem?_eq_getElem hlt]
      rfl
    · exact List.getElem?_set_ne fun he => hn he.symm

/-- Witness for C4: editing record 0 of a one-record store. -/
theorem edit_valid_spec_witness :
    keysNodup [("title", JValue.jstr "b"), ("y", JValue.jnum 2)] = true ∧
    (ManuscriptDB.edit ⟨[[("title", .jstr "a"), ("x", .jnum 1)]], none⟩ 0
      [("title", .jstr "b"), ("y", .jnum 2)]).2 = none ∧
    (ManuscriptDB.edit ⟨[[("title", .jstr "a"), ("x", .jnum 1)]], none⟩ 0
      [("title", .jstr "b"), ("y", .jnum 2)]).1.data.length = 1 ∧
    getKey (dictUpdate [("title", JValue.jstr "a"), ("x", JValue.jnum 1)]
        [("title", JValue.jstr "b"), ("y", JValue.jnum 2)]) "title"
      = getKey [("title", JValue.jstr "b"), ("y", JValue.jnum 2)] "title" ∧
    getKey (dictUpdate [("title", JValue.jstr "a"), ("x", JValue.jnum 1)]
        [("title", JValue.jstr "b"), ("y", JValue.jnum 2)]) "x"
      = getKey [("title", JValue.jstr "a"), ("x", JValue.jnum 1)] "x" ∧
    (ManuscriptDB.edit ⟨[[("title", .jstr "a"), ("x", .jnum 1)]], none⟩ 0 []).1.data
      = [[("title", .jstr "a"), ("x", .jnum 1)]] := by
  have t := edit_valid_spec ⟨[[("title", .jstr "a"), ("x", .jnum 1)]], none⟩ 0
    [("title", .jstr "b"), ("y", .jnum 2)] (by decide) (by decide) rfl
  exact ⟨rfl, t.1, t.2.1, t.2.2.2.2.1 "title" rfl, t.2.2.2.2.2.1 "x" rfl,
    t.2.2.2.2.2.2.1⟩

/-- Claim C5: persisting the in-memory list to the backing file (as `_save`
does after every mutation) and loading a fresh store from that file recovers
the identical ordered record list.  The hypothesis is the JSON
representability of the data: as in any state reachable from Python
dictionaries, every object has distinct keys. -/
theorem save_load_roundtrip (data : List Record) (file0 : Option String)
    (h : wfVal (recordsToJson data) = true) :
    ManuscriptDB.load (ManuscriptDB.save ⟨data, file0⟩).file = .ok data := by
  show ManuscriptDB.load (some (dumps (recordsToJson data))) = .ok data
  rw [load_some]
  have hdataeq : (dumps (recordsToJson data)).data = printChars (recordsToJson data) := rfl
  have hne : printChars (recordsToJson data) ≠ [] := by
    obtain ⟨c, t, hct, -⟩ := printChars_head (recordsToJson data)
    rw [hct]
    simp
  rw [hdataeq, stripChars_printChars, if_neg hne,
    show parseDoc (printChars (recordsToJson data)) = some (recordsToJson data) from
      parseDoc_print _ h]
  show (match asRecords (data.map .jobj) with
    | some rs => Except.ok rs
    | none => Except.error LoadError.notRecordArray) = Except.ok data
  rw [asRecords_map]

/-- Witness for C5: a concrete two-record store. -/
theorem save_load_roundtrip_witness :
    wfVal (recordsToJson [[("a", JValue.jnum 1)], []]) = true ∧
    ManuscriptDB.load
        (ManuscriptDB.save ⟨[[("a", JValue.jnum 1)], []], none⟩).file
      = .ok [[("a", JValue.jnum 1)], []] :=
  ⟨rfl, save_load_roundtrip [[("a", JValue.jnum 1)], []] none rfl⟩

/-- Claim C6: `delete` at a valid index removes exactly that record, shortens
the list by one, and shifts every later record down one position, keeping the
relative order of the remaining records. -/
theorem delete_valid_spec (db : DB) (i : Int)
    (h1 : 0 ≤ i) (h2 : i < (db.data.length : Int)) :
    (ManuscriptDB.delete db i).2 = none ∧
    (ManuscriptDB.delete db i).1.data.length + 1 = db.data.length ∧
    (∀ j : Nat, j < i.toNat → (ManuscriptDB.delete db i).1.data[j]? = db.data[j]?) ∧
    (∀ j : Nat, i.toNat ≤ j →
      (ManuscriptDB.delete db i).1.data[j]? = db.data[j + 1]?) := by
  have hcond : ¬(i < 0 ∨ (db.data.length : Int) ≤ i) := by omega
  have hlt : i.toNat < db.data.length := by omega
  have hdel : ManuscriptDB.delete db i =
      (ManuscriptDB.save { db with data := db.data.eraseIdx i.toNat }, none) := by
    unfold ManuscriptDB.delete
    rw [if_neg hcond]
  refine ⟨by rw [hdel], ?_, ?_, ?_⟩
  · rw [hdel]
    show (db.data.eraseIdx i.toNat).length + 1 = _
    rw [List.length_eraseIdx, if_pos hlt]
    omega
  · intro j hj
    rw [hdel]
    show (db.data.eraseIdx i.toNat)[j]? = _
    rw [List.getElem?_eraseIdx, if_pos hj]
  · intro j hj
    rw [hdel]
    show (db.data.eraseIdx i.toNat)[j]? = _
    rw [List.getElem?_eraseIdx, if_neg (by omega)]

/-- Witness for C6: deleting the middle record of a three-record store. -/
theorem delete_valid_spec_witness :
    (ManuscriptDB.delete
      ⟨[[("t", .jstr "A")], [("t", .jstr "B")], [("t", .jstr "C")]], none⟩ 1).2 = none ∧
    (ManuscriptDB.delete
      ⟨[[("t", .jstr "A")], [("t", .jstr "B")], [("t", .jstr "C")]], none⟩ 1).1.data.length
      + 1 = 3 ∧
    (ManuscriptDB.delete
      ⟨[[("t", .jstr "A")], [("t", .jstr "B")], [("t", .jstr "C")]], none⟩ 1).1.data[0]?
      = some [("t", .jstr "A")] ∧
    (ManuscriptDB.delete
      ⟨[[("t", .jstr "A")], [("t", .jstr "B")], [("t", .jstr "C")]], none⟩ 1).1.data[1]?
      = some [("t", .jstr "C")] := by
  have t := delete_valid_spec
    ⟨[[("t", .jstr "A")], [("t", .jstr "B")], [("t", .jstr "C")]], none⟩ 1
    (by decide) (by decide)
  exact ⟨t.1, t.2.1, t.2.2.1 0 (by decide), t.2.2.2 1 (by decide)⟩

/-- Claim C7: `add` appends the record to the end: the new list is the old
list plus the record, the last element is the added record, and all earlier
positions are unchanged. -/
theorem add_spec (db : DB) (r : Record) :
    (ManuscriptDB.add db r).data = db.data ++ [r] ∧
    (ManuscriptDB.add db r).data.getLast? = some r ∧
    (∀ j : Nat, j < db.data.length → (ManuscriptDB.add db r).data[j]? = db.data[j]?) := by
  have hadd : (ManuscriptDB.add db r).data = db.data ++ [r] := rfl
  refine ⟨hadd, ?_, ?_⟩
  · rw [hadd]
    exact List.getLast?_concat db.data
  · intro j hj
    rw [hadd, List.getElem?_append, if_pos hj]

/-- Witness for C7: appending to a one-record store. -/
theorem add_spec_witness :
    (ManuscriptDB.add ⟨[[("t", .jstr "A")]], none⟩ [("t", .jstr "B")]).data
      = [[("t", .jstr "A")]] ++ [[("t", .jstr "B")]] ∧
    (ManuscriptDB.add ⟨[[("t", .jstr "A")]], none⟩ [("t", .jstr "B")]).data.getLast?
      = some [("t", .jstr "B")] ∧
    (ManuscriptDB.add ⟨[[("t", .jstr "A")]], none⟩ [("t", .jstr "B")]).data[0]?
      = some [("t", .jstr "A")] := by
  have t := add_spec ⟨[[("t", .jstr "A")]], none⟩ [("t", .jstr "B")]
  exact ⟨t.1, t.2.1, t.2.2 0 (by decide)⟩

/-- Claim C8: store construction reads the backing file: an absent file or a
file that is empty after stripping whitespace yields the empty store; a file
whose stripped content parses as a JSON array of records yields that list;
content the parser rejects is a fatal, propagated load error. -/
theorem load_spec :
    ManuscriptDB.load none = .ok [] ∧
    (∀ s : String, stripChars s.data = [] → ManuscriptDB.load (some s) = .ok []) ∧
    (∀ (s : String) (xs : List JValue) (rs : List Record),
      stripChars s.data ≠ [] →
      parseDoc (stripChars s.data) = some (.jarr xs) →
      asRecords xs = some rs →
      ManuscriptDB.load (some s) = .ok rs) ∧
    (∀ s : String, stripChars s.data ≠ [] →
      parseDoc (stripChars s.data) = none →
      ManuscriptDB.load (some s) = .error .malformed) := by
  refine ⟨rfl, ?_, ?_, ?_⟩
  · intro s h
    rw [load_some, if_pos h]
  · intro s xs rs h1 h2 h3
    rw [load_some, if_neg h1, h2]
    show (match asRecords xs with
      | some rs' => Except.ok rs'
      | none => Except.error LoadError.notRecordArray) = Except.ok rs
    rw [h3]
  · intro s h1 h2
    rw [load_some, if_neg h1, h2]

/-- Witness for C8: an absent file, a whitespace-only file, a one-record
array, and an unterminated array. -/
theorem load_spec_witness :
    ManuscriptDB.load none = .ok [] ∧
    ManuscriptDB.load (some "  ") = .ok [] ∧
    ManuscriptDB.load (some "[\x7b\"a\": 1\x7d]") = .ok [[("a", JValue.jnum 1)]] ∧
    ManuscriptDB.load (some "[") = .error .malformed :=
  ⟨load_spec.1,
   load_spec.2.1 "  " rfl,
   load_spec.2.2.1 "[\x7b\"a\": 1\x7d]" [.jobj [("a", JValue.jnum 1)]]
     [[("a", JValue.jnum 1)]] (by decide) rfl rfl,
   load_spec.2.2.2 "[" (by decide) rfl⟩

/-- Claim C9: supplying the empty string for any `filter` parameter behaves
exactly as if that parameter were absent: it is a wildcard. -/
theorem filter_empty_param_wildcard (data : List Record) (m d mt : Option String) :
    ManuscriptDB.filter (some "") d mt data = ManuscriptDB.filter none d mt data ∧
    ManuscriptDB.filter m (some "") mt data = ManuscriptDB.filter m none mt data ∧
    ManuscriptDB.filter m d (some "") data = ManuscriptDB.filter m d none data := by
  refine ⟨?_, ?_, ?_⟩ <;>
    · unfold ManuscriptDB.filter ManuscriptDB.entryMatches
      apply List.filter_congr
      intro e _
      simp [ManuscriptDB.checkParam]

/-- Claim C10: the prompt generator is a constant (it reads no store state):
its output is the fixed serialization of `promptValue`, that string parses
back as JSON to `promptValue`, and the parsed document has a `fields` object
with the keys `methods`, `datasets` and `metrics`. -/
theorem generate_prompt_spec :
    generate_prompt = dumps promptValue ∧
    loads generate_prompt = some promptValue ∧
    (∃ f, fieldsObj promptValue = some f ∧
      hasKey f "methods" = true ∧ hasKey f "datasets" = true ∧
      hasKey f "metrics" = true) := by
  refine ⟨rfl, loads_dumps promptValue (by rfl), ⟨_, rfl, rfl, rfl, rfl⟩⟩

end Manuscripts
